import Mathlib

set_option maxHeartbeats 1000000
set_option linter.unusedVariables false

/-!
Verification development for the `vig` terminal diff viewer.

Each section shallowly embeds one component of the source tree:
  * `src/git/diff.rs`    — row aligner and diff data model
  * `src/app.rs`         — content projector, cursor/motion engine,
                           visual-mode yank, search navigation, diff refresh
  * `src/syntax.rs`      — incremental highlight cache

Rust `usize` values are modelled as `Nat` (no overflow is reachable in the
modelled code paths: all arithmetic is index arithmetic guarded by lengths,
and Rust's own `saturating_sub` is Nat subtraction).  Rust `Vec<T>` becomes
`List T`, `Option<T>` becomes `Option T`, and `Result` becomes `Except`.
-/

namespace Vig

/-! ## Data model of `src/git/diff.rs` -/

/-- `FileStatus` from src/git/diff.rs. -/
inductive FileStatus
  | Added
  | Deleted
  | Modified
  | Renamed
  | Untracked
deriving DecidableEq

/-- `LineType` from src/git/diff.rs. -/
inductive LineType
  | Context
  | Added
  | Deleted
  | HunkHeader
deriving DecidableEq

/-- `SideLine` from src/git/diff.rs: one side of a side-by-side row. -/
structure SideLine where
  lineNo : Nat
  content : String
deriving DecidableEq

/-- `SideBySideRow` from src/git/diff.rs. -/
structure SideBySideRow where
  left : Option SideLine
  right : Option SideLine
  lineType : LineType
deriving DecidableEq

/-- `DiffHunk` from src/git/diff.rs. -/
structure DiffHunk where
  header : String
  rows : List SideBySideRow
deriving DecidableEq

/-- `FileDiff` from src/git/diff.rs. -/
structure FileDiff where
  path : String
  status : FileStatus
  hunks : List DiffHunk
  isBinary : Bool
deriving DecidableEq

/-- `RawHunkLine` from src/git/diff.rs: one raw diff line as handed to the
aligner (origin tag, old/new line numbers, text). -/
structure RawHunkLine where
  origin : Char
  oldLineno : Option Nat
  newLineno : Option Nat
  content : String
deriving DecidableEq

/-- The `SideLine` built for a deletion line (`line_no: l.old_lineno.unwrap_or(0)`). -/
def mkLeftSide (l : RawHunkLine) : SideLine :=
  { lineNo := l.oldLineno.getD 0, content := l.content }

/-- The `SideLine` built for an addition line (`line_no: l.new_lineno.unwrap_or(0)`). -/
def mkRightSide (l : RawHunkLine) : SideLine :=
  { lineNo := l.newLineno.getD 0, content := l.content }

/-- The pairing loop of `align_hunk_lines` (src/git/diff.rs:234-257): a run of
deletions and the following run of additions are paired index-for-index for
`j` in `0..max(len, len)`, skipping (impossible) rows where both sides are
absent, with `line_type` chosen exactly as in the source `match`. -/
def pairRows (dels adds : List RawHunkLine) : List SideBySideRow :=
  (List.range (max dels.length adds.length)).filterMap (fun j =>
    match dels.get? j, adds.get? j with
    | none, none => none
    | some d, none =>
      some { left := some (mkLeftSide d), right := none, lineType := LineType.Deleted }
    | some d, some a =>
      some { left := some (mkLeftSide d), right := some (mkRightSide a),
             lineType := LineType.Deleted }
    | none, some a =>
      some { left := none, right := some (mkRightSide a), lineType := LineType.Added })

theorem dropWhile_length_le {α : Type} (p : α → Bool) :
    ∀ l : List α, (List.dropWhile p l).length ≤ l.length
  | [] => by simp [List.dropWhile]
  | a :: l => by
    by_cases h : p a
    · simpa [List.dropWhile_cons, h] using Nat.le_succ_of_le (dropWhile_length_le p l)
    · simp [List.dropWhile_cons, h]

theorem length_dropWhile_dropWhile_lt {α : Type} (p q : α → Bool) (a : α) (l : List α)
    (h : p a = true) :
    ((List.dropWhile q (List.dropWhile p (a :: l)))).length < (a :: l).length := by
  have h1 : List.dropWhile p (a :: l) = List.dropWhile p l := by
    simp [List.dropWhile_cons, h]
  rw [h1]
  have h2 := dropWhile_length_le q (List.dropWhile p l)
  have h3 := dropWhile_length_le p l
  simp only [List.length_cons]
  omega

/-- `align_hunk_lines` from src/git/diff.rs:197-278.  The Rust `while` loop over
an index is rendered as recursion on the list of remaining lines; the runs of
consecutive `-`/`+` lines collected by the two inner loops become
`takeWhile`/`dropWhile`. -/
def alignHunkLines : List RawHunkLine → List SideBySideRow
  | [] => []
  | l :: rest =>
    if l.origin = ' ' then
      { left := some { lineNo := l.oldLineno.getD 0, content := l.content },
        right := some { lineNo := l.newLineno.getD 0, content := l.content },
        lineType := LineType.Context } :: alignHunkLines rest
    else if h : l.origin = '-' then
      let dels := (l :: rest).takeWhile (fun x => x.origin = '-')
      let adds := ((l :: rest).dropWhile (fun x => x.origin = '-')).takeWhile
        (fun x => x.origin = '+')
      pairRows dels adds ++
        alignHunkLines (((l :: rest).dropWhile (fun x => x.origin = '-')).dropWhile
          (fun x => x.origin = '+'))
    else if l.origin = '+' then
      { left := none,
        right := some { lineNo := l.newLineno.getD 0, content := l.content },
        lineType := LineType.Added } :: alignHunkLines rest
    else
      alignHunkLines rest
termination_by lines => lines.length
decreasing_by
  · simp
  · exact length_dropWhile_dropWhile_lt _ _ _ _ (by simp [h])
  · simp
  · simp

theorem takeWhile_append_all {α : Type} (p : α → Bool) (xs ys : List α)
    (hall : ∀ x ∈ xs, p x = true) :
    (xs ++ ys).takeWhile p = xs ++ ys.takeWhile p := by
  induction xs with
  | nil => simp
  | cons a l ih =>
    have ha : p a = true := hall a (by simp)
    simp only [List.cons_append, List.takeWhile_cons, ha, if_true]
    rw [ih (fun x hx => hall x (by simp [hx]))]

theorem dropWhile_append_all {α : Type} (p : α → Bool) (xs ys : List α)
    (hall : ∀ x ∈ xs, p x = true) :
    (xs ++ ys).dropWhile p = ys.dropWhile p := by
  induction xs with
  | nil => simp
  | cons a l ih =>
    have ha : p a = true := hall a (by simp)
    simp only [List.cons_append, List.dropWhile_cons, ha, if_true]
    exact ih (fun x hx => hall x (by simp [hx]))

theorem takeWhile_eq_nil_of_head {α : Type} (p : α → Bool) (ys : List α)
    (hh : ∀ x, ys.head? = some x → p x = false) :
    ys.takeWhile p = [] := by
  cases ys with
  | nil => rfl
  | cons a l => simp [List.takeWhile_cons, hh a rfl]

theorem dropWhile_eq_self_of_head {α : Type} (p : α → Bool) (ys : List α)
    (hh : ∀ x, ys.head? = some x → p x = false) :
    ys.dropWhile p = ys := by
  cases ys with
  | nil => rfl
  | cons a l => simp [List.dropWhile_cons, hh a rfl]

theorem filterMap_eq_map_of_forall {α β : Type} (f : α → Option β) (g : α → β) (l : List α)
    (h : ∀ a ∈ l, f a = some (g a)) : l.filterMap f = l.map g := by
  induction l with
  | nil => rfl
  | cons a l ih =>
    simp only [List.filterMap_cons, h a (by simp), List.map_cons]
    rw [ih (fun x hx => h x (by simp [hx]))]

/-- `pairRows` never skips an index `j < max(len, len)`, so the filterMap is a
map producing exactly one row per pairing index. -/
theorem pairRows_eq_map (dels adds : List RawHunkLine) :
    pairRows dels adds =
      (List.range (max dels.length adds.length)).map (fun j =>
        { left := (dels.get? j).map mkLeftSide,
          right := (adds.get? j).map mkRightSide,
          lineType := if j < dels.length then LineType.Deleted else LineType.Added }) := by
  unfold pairRows
  apply filterMap_eq_map_of_forall
  intro j hj
  have hjlt : j < max dels.length adds.length := List.mem_range.mp hj
  rcases hd : dels.get? j with _ | d <;> rcases ha : adds.get? j with _ | a
  · exfalso
    have h1 : dels.length ≤ j := List.get?_eq_none.mp hd
    have h2 : adds.length ≤ j := List.get?_eq_none.mp ha
    omega
  · have h1 : dels.length ≤ j := List.get?_eq_none.mp hd
    simp [if_neg (by omega : ¬ j < dels.length)]
  · have h1 : j < dels.length := by
      by_contra hc
      rw [List.get?_eq_none.mpr (by omega)] at hd
      exact absurd hd (by simp)
    simp [if_pos h1]
  · have h1 : j < dels.length := by
      by_contra hc
      rw [List.get?_eq_none.mpr (by omega)] at hd
      exact absurd hd (by simp)
    simp [if_pos h1]

/-- C6: the aligner pairs a maximal run of consecutive deletions followed by a
maximal run of consecutive additions index-for-index, producing
`max (run lengths)` rows where row `j` pairs the `j`-th deletion with the
`j`-th addition; unmatched tail lines yield rows with only their own side
populated, rows with a left line are `Deleted` and left-less rows are `Added`. -/
theorem align_pairs_runs (dels adds rest : List RawHunkLine)
    (hne : dels ≠ [])
    (hdel : ∀ x ∈ dels, x.origin = '-')
    (hadd : ∀ x ∈ adds, x.origin = '+')
    (hrest : ∀ x, rest.head? = some x → x.origin ≠ '-' ∧ x.origin ≠ '+') :
    alignHunkLines (dels ++ adds ++ rest) =
      (List.range (max dels.length adds.length)).map (fun j =>
        { left := (dels.get? j).map mkLeftSide,
          right := (adds.get? j).map mkRightSide,
          lineType := if j < dels.length then LineType.Deleted else LineType.Added }) ++
      alignHunkLines rest := by
  obtain ⟨d, ds, rfl⟩ : ∃ d ds, dels = d :: ds := by
    cases dels with
    | nil => exact absurd rfl hne
    | cons d ds => exact ⟨d, ds, rfl⟩
  have hd : d.origin = '-' := hdel d (by simp)
  have hAllMinus : ∀ x ∈ d :: ds, (decide (x.origin = '-')) = true := by
    intro x hx
    simp [hdel x hx]
  have hAllPlus : ∀ x ∈ adds, (decide (x.origin = '+')) = true := by
    intro x hx
    simp [hadd x hx]
  have hHeadNotMinus : ∀ x, (adds ++ rest).head? = some x →
      (decide (x.origin = '-')) = false := by
    intro x hx
    cases adds with
    | nil =>
      simp only [List.nil_append] at hx
      simp [(hrest x hx).1]
    | cons a l =>
      have ha : a.origin = '+' := hadd a (by simp)
      have hax : x = a := by
        simp only [List.cons_append, List.head?_cons, Option.some.injEq] at hx
        exact hx.symm
      rw [hax]
      simp [ha]
  have hHeadNotPlus : ∀ x, rest.head? = some x → (decide (x.origin = '+')) = false := by
    intro x hx
    simp [(hrest x hx).2]
  have htw1 : (d :: (ds ++ (adds ++ rest))).takeWhile (fun x => x.origin = '-') = d :: ds := by
    rw [show d :: (ds ++ (adds ++ rest)) = (d :: ds) ++ (adds ++ rest) by simp]
    rw [takeWhile_append_all _ _ _ hAllMinus, takeWhile_eq_nil_of_head _ _ hHeadNotMinus]
    simp
  have hdw1 : (d :: (ds ++ (adds ++ rest))).dropWhile (fun x => x.origin = '-') =
      adds ++ rest := by
    rw [show d :: (ds ++ (adds ++ rest)) = (d :: ds) ++ (adds ++ rest) by simp]
    rw [dropWhile_append_all _ _ _ hAllMinus, dropWhile_eq_self_of_head _ _ hHeadNotMinus]
  have htw2 : (adds ++ rest).takeWhile (fun x => x.origin = '+') = adds := by
    rw [takeWhile_append_all _ _ _ hAllPlus, takeWhile_eq_nil_of_head _ _ hHeadNotPlus]
    simp
  have hdw2 : (adds ++ rest).dropWhile (fun x => x.origin = '+') = rest := by
    rw [dropWhile_append_all _ _ _ hAllPlus, dropWhile_eq_self_of_head _ _ hHeadNotPlus]
  have hNotSpace : ¬ d.origin = ' ' := by rw [hd]; decide
  have harg : (d :: ds) ++ adds ++ rest = d :: (ds ++ (adds ++ rest)) := by simp
  rw [harg, alignHunkLines, if_neg hNotSpace, dif_pos hd]
  simp only [htw1, hdw1, htw2, hdw2, pairRows_eq_map]

/-- The deletion line of the spec's end-to-end example hunk `["-old line", "+new line"]`. -/
def exampleDelLine : RawHunkLine := ⟨'-', some 1, none, "old line"⟩

/-- The addition line of the spec's end-to-end example hunk. -/
def exampleAddLine : RawHunkLine := ⟨'+', none, some 1, "new line"⟩

/-- Witness for C6: the hunk `["-old line", "+new line"]` aligns to exactly one
row with left `"old line"`, right `"new line"`, kind `Deleted`. -/
theorem align_pairs_runs_witness :
    alignHunkLines [exampleDelLine, exampleAddLine] =
      [{ left := some { lineNo := 1, content := "old line" },
         right := some { lineNo := 1, content := "new line" },
         lineType := LineType.Deleted }] := by
  have h := align_pairs_runs [exampleDelLine] [exampleAddLine] []
    (by simp)
    (by intro x hx; simp at hx; rw [hx]; rfl)
    (by intro x hx; simp at hx; rw [hx]; rfl)
    (by intro x hx; simp at hx)
  simp only [List.cons_append, List.nil_append, List.append_nil] at h
  rw [h]
  simp [alignHunkLines, exampleDelLine, exampleAddLine, mkLeftSide, mkRightSide,
    List.range_succ]

/-- Every row produced by the pairing loop has at least one populated side, and
`Added` rows have no left side. -/
theorem pairRows_row_invariant (dels adds : List RawHunkLine) (row : SideBySideRow)
    (h : row ∈ pairRows dels adds) :
    (row.left.isSome ∨ row.right.isSome) ∧
      (row.lineType = LineType.Added → row.left = none) := by
  unfold pairRows at h
  rw [List.mem_filterMap] at h
  obtain ⟨j, hj, hfj⟩ := h
  rcases hd : dels.get? j with _ | d <;> rcases ha : adds.get? j with _ | a <;>
      rw [hd, ha] at hfj
  · simp at hfj
  · injection hfj with h2
    subst h2
    simp
  · injection hfj with h2
    subst h2
    simp
  · injection hfj with h2
    subst h2
    simp

/-- C7: every row produced by `align_hunk_lines` has at least one side
populated, and every `Added` row has an empty left side. -/
theorem align_row_invariant (lines : List RawHunkLine) (row : SideBySideRow)
    (hrow : row ∈ alignHunkLines lines) :
    (row.left.isSome ∨ row.right.isSome) ∧
      (row.lineType = LineType.Added → row.left = none) := by
  induction lines using alignHunkLines.induct with
  | case1 => simp [alignHunkLines] at hrow
  | case2 l rest h1 ih =>
    rw [alignHunkLines, if_pos h1] at hrow
    rcases List.mem_cons.mp hrow with h2 | h2
    · subst h2; simp
    · exact ih h2
  | case3 l rest h1 h2 ih =>
    rw [alignHunkLines, if_neg h1, dif_pos h2] at hrow
    rcases List.mem_append.mp hrow with h3 | h3
    · exact pairRows_row_invariant _ _ _ h3
    · exact ih h3
  | case4 l rest h1 h2 h3 ih =>
    rw [alignHunkLines, if_neg h1, dif_neg h2, if_pos h3] at hrow
    rcases List.mem_cons.mp hrow with h4 | h4
    · subst h4; simp
    · exact ih h4
  | case5 l rest h1 h2 h3 ih =>
    rw [alignHunkLines, if_neg h1, dif_neg h2, if_neg h3] at hrow
    exact ih hrow

/-- The single row the aligner produces for the pure-addition hunk `["+new line"]`. -/
def exampleAddedRow : SideBySideRow :=
  { left := none,
    right := some { lineNo := 1, content := "new line" },
    lineType := LineType.Added }

/-- Witness for C7 at the pure-addition hunk `["+new line"]`. -/
theorem align_row_invariant_witness :
    exampleAddedRow ∈ alignHunkLines [exampleAddLine] ∧
      ((exampleAddedRow.left.isSome ∨ exampleAddedRow.right.isSome) ∧
        (exampleAddedRow.lineType = LineType.Added → exampleAddedRow.left = none)) := by
  have hmem : exampleAddedRow ∈ alignHunkLines [exampleAddLine] := by
    simp [alignHunkLines, exampleAddLine, exampleAddedRow]
  exact ⟨hmem, align_row_invariant [exampleAddLine] exampleAddedRow hmem⟩

/-! ## Content projector (`content_lines`, src/app.rs) -/

/-- `DiffSide` from src/app.rs. -/
inductive DiffSide
  | Left
  | Right
deriving DecidableEq

/-- `content_lines` (src/app.rs:1843-1875): flatten the selected file's hunks
into one display line per hunk-header-or-row for the given side; a row whose
side is absent contributes the empty string.  The `content_lines_cache`
memoization and the selected-file lookup are elided: this is the pure
per-(file, side) computation whose result is what the cache stores. -/
def contentLines (file : FileDiff) (side : DiffSide) : List String :=
  (file.hunks.map (fun hunk =>
    hunk.header :: hunk.rows.map (fun row =>
      match (match side with
             | DiffSide.Left => row.left
             | DiffSide.Right => row.right) with
      | some sl => sl.content
      | none => ""))).flatten

/-- Each hunk contributes `rows.length + 1` flattened lines, independent of side. -/
theorem contentLines_length (file : FileDiff) (side : DiffSide) :
    (contentLines file side).length =
      (file.hunks.map (fun h => h.rows.length + 1)).sum := by
  unfold contentLines
  rw [List.length_flatten, List.map_map]
  have hfun : (List.length ∘ fun hunk : DiffHunk =>
      hunk.header :: hunk.rows.map (fun row =>
        match (match side with
               | DiffSide.Left => row.left
               | DiffSide.Right => row.right) with
        | some sl => sl.content
        | none => "")) = fun h : DiffHunk => h.rows.length + 1 := by
    funext hunk
    simp
  rw [hfun]

/-- C10: the flattened Left and Right content buffers of a file always have the
same length, so a row index valid on one side stays valid after a side
switch. -/
theorem contentLines_length_side_eq (file : FileDiff) :
    (contentLines file DiffSide.Left).length =
      (contentLines file DiffSide.Right).length := by
  rw [contentLines_length, contentLines_length]

/-! ## Highlight cache (`src/syntax.rs`)

The syntect tokenizer is external to the repository, so the embedding is
parameterized over it: `TokEnv` packages the lookup tables of the
`SyntaxHighlighter` (`find_syntax_by_extension`, `find_syntax_by_first_line`,
the syntax name used for the Plain-Text filter) and the per-line low-level
highlighting step `highlight_line_colors` (which threads a `ParseState` and a
`HighlightState` and yields one color per character; a tokenizer error inside
it yields an empty color list, which the abstraction also permits).  Every
definition below is then a direct translation of src/syntax.rs against an
arbitrary such environment. -/

/-- The external tokenizer interface used by `SyntaxHighlighter`:
`Syn` = syntax definitions, `PSt` = syntect `ParseState`,
`HSt` = syntect `HighlightState`, `C` = colors. -/
structure TokEnv (Syn PSt HSt C : Type) where
  findByExt : String → Option Syn
  findByFirstLine : String → Option Syn
  synName : Syn → String
  parseInit : Syn → PSt
  hlInit : HSt
  hlLine : PSt → HSt → String → PSt × HSt × List C

/-- `path.rsplit('.').next()` (src/syntax.rs:139): the last dot-separated
component of the path (the whole path when it contains no dot). -/
def extOf (path : String) : String :=
  (path.splitOn ".").getLastD ""

/-- `SyntaxHighlighter::find_syntax` (src/syntax.rs:138-151): extension lookup
first, then first-line detection filtered against the "Plain Text" syntax. -/
def findSyntax {Syn PSt HSt C : Type} (env : TokEnv Syn PSt HSt C)
    (path : String) (firstLine : Option String) : Option Syn :=
  match env.findByExt (extOf path) with
  | some syn => some syn
  | none =>
    match firstLine with
    | none => none
    | some line =>
      match env.findByFirstLine line with
      | none => none
      | some syn => if env.synName syn ≠ "Plain Text" then some syn else none

/-- The first-line detection input of `create_cache`/`highlight_all_lines`
(src/syntax.rs:162-166, 250-254): the first non-header, non-empty left line. -/
def firstContent (leftLines : List String) (hunkStarts : List Nat) : Option String :=
  ((leftLines.enum).find? (fun p => !hunkStarts.contains p.1 && !p.2.isEmpty)).map (·.2)

/-- `IncrementalState` from src/syntax.rs:24-33. -/
structure IncrementalState (PSt HSt : Type) where
  leftParseState : PSt
  leftHighlightState : HSt
  rightParseState : PSt
  rightHighlightState : HSt
  leftLines : List String
  rightLines : List String
  hunkStarts : List Nat
deriving DecidableEq

/-- `HighlightCache` from src/syntax.rs:13-22. -/
structure HighlightCache (PSt HSt C : Type) where
  filePath : String
  leftColors : List (List C)
  rightColors : List (List C)
  processedUpTo : Nat
  incremental : Option (IncrementalState PSt HSt)
deriving DecidableEq

/-- `HighlightCache::from_precomputed` (src/syntax.rs:37-50). -/
def fromPrecomputed {PSt HSt C : Type} (filePath : String)
    (leftColors rightColors : List (List C)) : HighlightCache PSt HSt C :=
  { filePath := filePath
    leftColors := leftColors
    rightColors := rightColors
    processedUpTo := leftColors.length
    incremental := none }

/-- `SyntaxHighlighter::create_cache` (src/syntax.rs:154-184). -/
def createCache {Syn PSt HSt C : Type} (env : TokEnv Syn PSt HSt C) (filePath : String)
    (leftLines rightLines : List String) (hunkStarts : List Nat) :
    Option (HighlightCache PSt HSt C) :=
  match findSyntax env filePath (firstContent leftLines hunkStarts) with
  | none => none
  | some syn =>
    some { filePath := filePath
           leftColors := []
           rightColors := []
           processedUpTo := 0
           incremental := some { leftParseState := env.parseInit syn
                                 leftHighlightState := env.hlInit
                                 rightParseState := env.parseInit syn
                                 rightHighlightState := env.hlInit
                                 leftLines := leftLines
                                 rightLines := rightLines
                                 hunkStarts := hunkStarts } }

/-- The body of the `extend_cache` loop (src/syntax.rs:202-237) for one row
index `i`: at a hunk-start row the parse/highlight states are re-initialized
only when the extension lookup `find_syntax(&cache.file_path, None)` succeeds,
and an empty color row is pushed on both sides; otherwise both sides' lines
are highlighted and their colors pushed.  The Rust code indexes
`inc.left_lines[i]`/`inc.right_lines[i]` directly; here `getD _ ""` is used —
for every row the loop visits, `i < left_lines.len()` holds by construction of
`target`, and the program only ever builds caches with
`right_lines.len() = left_lines.len()` (hypothesis `cacheWF` below), so the
two coincide on all reachable states. -/
def extendStep {Syn PSt HSt C : Type} (env : TokEnv Syn PSt HSt C) (filePath : String)
    (st : IncrementalState PSt HSt × List (List C) × List (List C)) (i : Nat) :
    IncrementalState PSt HSt × List (List C) × List (List C) :=
  let inc := st.1
  let lcs := st.2.1
  let rcs := st.2.2
  if inc.hunkStarts.contains i then
    match findSyntax env filePath none with
    | some syn =>
      ({ inc with leftParseState := env.parseInit syn
                  leftHighlightState := env.hlInit
                  rightParseState := env.parseInit syn
                  rightHighlightState := env.hlInit },
       lcs ++ [[]], rcs ++ [[]])
    | none => (inc, lcs ++ [[]], rcs ++ [[]])
  else
    let lres := env.hlLine inc.leftParseState inc.leftHighlightState (inc.leftLines.getD i "")
    let rres := env.hlLine inc.rightParseState inc.rightHighlightState (inc.rightLines.getD i "")
    ({ inc with leftParseState := lres.1
                leftHighlightState := lres.2.1
                rightParseState := rres.1
                rightHighlightState := rres.2.1 },
     lcs ++ [lres.2.2], rcs ++ [rres.2.2])

/-- `SyntaxHighlighter::extend_cache` (src/syntax.rs:191-239): a no-op for
pre-computed caches and for bounds at or below `processed_up_to`; otherwise
the rows `[processed_up_to, min up_to len)` are processed in order. -/
def extendCache {Syn PSt HSt C : Type} (env : TokEnv Syn PSt HSt C)
    (cache : HighlightCache PSt HSt C) (upTo : Nat) : HighlightCache PSt HSt C :=
  match cache.incremental with
  | none => cache
  | some inc =>
    let target := min upTo inc.leftLines.length
    if cache.processedUpTo ≥ target then cache
    else
      let res := (List.range' cache.processedUpTo (target - cache.processedUpTo)).foldl
        (extendStep env cache.filePath) (inc, cache.leftColors, cache.rightColors)
      { cache with leftColors := res.2.1
                   rightColors := res.2.2
                   processedUpTo := target
                   incremental := some res.1 }

/-- The loop body of `highlight_all_lines` (src/syntax.rs:266-283) for one
enumerated pair `(i, (l, r))`: at a hunk-start row both sides' states are
re-initialized unconditionally and empty color rows pushed; otherwise both
lines are highlighted. -/
def hlAllStep {Syn PSt HSt C : Type} (env : TokEnv Syn PSt HSt C) (syn : Syn)
    (hunkStarts : List Nat)
    (st : (PSt × HSt × PSt × HSt) × List (List C) × List (List C))
    (p : Nat × String × String) :
    (PSt × HSt × PSt × HSt) × List (List C) × List (List C) :=
  if hunkStarts.contains p.1 then
    ((env.parseInit syn, env.hlInit, env.parseInit syn, env.hlInit),
     st.2.1 ++ [[]], st.2.2 ++ [[]])
  else
    let lres := env.hlLine st.1.1 st.1.2.1 p.2.1
    let rres := env.hlLine st.1.2.2.1 st.1.2.2.2 p.2.2
    ((lres.1, lres.2.1, rres.1, rres.2.1),
     st.2.1 ++ [lres.2.2], st.2.2 ++ [rres.2.2])

/-- `SyntaxHighlighter::highlight_all_lines` (src/syntax.rs:243-286): the eager
whole-file path, iterating over `left_lines.zip(right_lines).enumerate()` and
resetting both sides' states unconditionally at every hunk-start row. -/
def highlightAllLines {Syn PSt HSt C : Type} (env : TokEnv Syn PSt HSt C)
    (filePath : String) (leftLines rightLines : List String) (hunkStarts : List Nat) :
    Option (List (List C) × List (List C)) :=
  match findSyntax env filePath (firstContent leftLines hunkStarts) with
  | none => none
  | some syn =>
    let res := ((leftLines.zip rightLines).enum).foldl (hlAllStep env syn hunkStarts)
      ((env.parseInit syn, env.hlInit, env.parseInit syn, env.hlInit), [], [])
    some (res.2.1, res.2.2)

/-- The well-formedness every cache built by the program satisfies: equal-length
side buffers, color vectors aligned with `processed_up_to`, and a processed
count within bounds (`create_cache` establishes it and `extend_cache`
preserves it). -/
def cacheWF {PSt HSt C : Type} (c : HighlightCache PSt HSt C) : Prop :=
  match c.incremental with
  | none => True
  | some inc =>
    inc.rightLines.length = inc.leftLines.length ∧
    c.leftColors.length = c.processedUpTo ∧
    c.rightColors.length = c.processedUpTo ∧
    c.processedUpTo ≤ inc.leftLines.length

theorem extendStep_decompose {Syn PSt HSt C : Type} (env : TokEnv Syn PSt HSt C) (fp : String)
    (inc : IncrementalState PSt HSt) (lcs rcs : List (List C)) (i : Nat) :
    extendStep env fp (inc, lcs, rcs) i =
      ((extendStep env fp (inc, [], []) i).1,
       lcs ++ (extendStep env fp (inc, [], []) i).2.1,
       rcs ++ (extendStep env fp (inc, [], []) i).2.2) := by
  unfold extendStep
  by_cases h : inc.hunkStarts.contains i
  · simp only [h, if_true]
    cases findSyntax env fp none <;> simp
  · simp only [h]
    simp

theorem extendStep_lines {Syn PSt HSt C : Type} (env : TokEnv Syn PSt HSt C) (fp : String)
    (st : IncrementalState PSt HSt × List (List C) × List (List C)) (i : Nat) :
    ((extendStep env fp st i).1).leftLines = st.1.leftLines ∧
    ((extendStep env fp st i).1).rightLines = st.1.rightLines ∧
    ((extendStep env fp st i).1).hunkStarts = st.1.hunkStarts := by
  unfold extendStep
  by_cases h : st.1.hunkStarts.contains i
  · simp only [h, if_true]
    cases findSyntax env fp none <;> simp
  · simp only [h]
    simp

theorem foldl_extendStep_lines {Syn PSt HSt C : Type} (env : TokEnv Syn PSt HSt C)
    (fp : String) :
    ∀ (idxs : List Nat) (st : IncrementalState PSt HSt × List (List C) × List (List C)),
    ((idxs.foldl (extendStep env fp) st).1).leftLines = st.1.leftLines ∧
    ((idxs.foldl (extendStep env fp) st).1).rightLines = st.1.rightLines ∧
    ((idxs.foldl (extendStep env fp) st).1).hunkStarts = st.1.hunkStarts
  | [], st => by simp
  | i :: idxs, st => by
    simp only [List.foldl_cons]
    have h1 := foldl_extendStep_lines env fp idxs (extendStep env fp st i)
    have h2 := extendStep_lines env fp st i
    exact ⟨h1.1.trans h2.1, h1.2.1.trans h2.2.1, h1.2.2.trans h2.2.2⟩

theorem foldl_extendStep_decompose {Syn PSt HSt C : Type} (env : TokEnv Syn PSt HSt C)
    (fp : String) :
    ∀ (idxs : List Nat) (inc : IncrementalState PSt HSt) (lcs rcs : List (List C)),
    idxs.foldl (extendStep env fp) (inc, lcs, rcs) =
      ((idxs.foldl (extendStep env fp) (inc, [], [])).1,
       lcs ++ (idxs.foldl (extendStep env fp) (inc, [], [])).2.1,
       rcs ++ (idxs.foldl (extendStep env fp) (inc, [], [])).2.2)
  | [], inc, lcs, rcs => by simp
  | i :: idxs, inc, lcs, rcs => by
    rcases hstep : extendStep env fp (inc, [], []) i with ⟨inc1, a, b⟩
    simp only [List.foldl_cons]
    rw [extendStep_decompose env fp inc lcs rcs i, hstep]
    rw [foldl_extendStep_decompose env fp idxs inc1 (lcs ++ a) (rcs ++ b)]
    rw [foldl_extendStep_decompose env fp idxs inc1 a b]
    simp [List.append_assoc]

theorem extendCache_of_none {Syn PSt HSt C : Type} (env : TokEnv Syn PSt HSt C)
    (c : HighlightCache PSt HSt C) (k : Nat) (h : c.incremental = none) :
    extendCache env c k = c := by
  unfold extendCache
  rw [h]

theorem extendCache_of_ge {Syn PSt HSt C : Type} (env : TokEnv Syn PSt HSt C)
    (c : HighlightCache PSt HSt C) (inc : IncrementalState PSt HSt) (k : Nat)
    (h : c.incremental = some inc) (hge : min k inc.leftLines.length ≤ c.processedUpTo) :
    extendCache env c k = c := by
  unfold extendCache
  rw [h]
  simp only [ge_iff_le]
  rw [if_pos hge]

theorem extendCache_of_lt {Syn PSt HSt C : Type} (env : TokEnv Syn PSt HSt C)
    (c : HighlightCache PSt HSt C) (inc : IncrementalState PSt HSt) (k t : Nat)
    (h : c.incremental = some inc) (ht : t = min k inc.leftLines.length)
    (hlt : c.processedUpTo < t) :
    extendCache env c k =
      { c with
        leftColors := c.leftColors ++
          ((List.range' c.processedUpTo (t - c.processedUpTo)).foldl
            (extendStep env c.filePath) (inc, [], [])).2.1
        rightColors := c.rightColors ++
          ((List.range' c.processedUpTo (t - c.processedUpTo)).foldl
            (extendStep env c.filePath) (inc, [], [])).2.2
        processedUpTo := t
        incremental := some
          ((List.range' c.processedUpTo (t - c.processedUpTo)).foldl
            (extendStep env c.filePath) (inc, [], [])).1 } := by
  subst ht
  unfold extendCache
  rw [h]
  simp only [ge_iff_le]
  rw [if_neg (by omega)]
  rw [foldl_extendStep_decompose env c.filePath _ inc c.leftColors c.rightColors]

theorem extendCache_colors_extend {Syn PSt HSt C : Type} (env : TokEnv Syn PSt HSt C)
    (c : HighlightCache PSt HSt C) (k : Nat) :
    ∃ s1 s2, (extendCache env c k).leftColors = c.leftColors ++ s1 ∧
      (extendCache env c k).rightColors = c.rightColors ++ s2 := by
  rcases hc : c.incremental with _ | inc
  · rw [extendCache_of_none env c k hc]
    exact ⟨[], [], by simp, by simp⟩
  · by_cases h : min k inc.leftLines.length ≤ c.processedUpTo
    · rw [extendCache_of_ge env c inc k hc h]
      exact ⟨[], [], by simp, by simp⟩
    · rw [extendCache_of_lt env c inc k _ hc rfl (by omega)]
      exact ⟨_, _, rfl, rfl⟩

/-- Extending twice composes: a second `extend_cache` call with a larger or
equal bound produces exactly the state a single call with the larger bound
would have produced. -/
theorem extendCache_compose {Syn PSt HSt C : Type} (env : TokEnv Syn PSt HSt C)
    (c : HighlightCache PSt HSt C) (k k2 : Nat) (hk : k ≤ k2) :
    extendCache env (extendCache env c k) k2 = extendCache env c k2 := by
  rcases hc : c.incremental with _ | inc
  · rw [extendCache_of_none env c k hc]
  · have ht12 : min k inc.leftLines.length ≤ min k2 inc.leftLines.length := by omega
    by_cases h1 : min k inc.leftLines.length ≤ c.processedUpTo
    · rw [extendCache_of_ge env c inc k hc h1]
    · set t1 := min k inc.leftLines.length with ht1
      set t2 := min k2 inc.leftLines.length with ht2
      set p := c.processedUpTo with hp
      have e1 := extendCache_of_lt env c inc k t1 hc ht1 (by omega)
      set fold1 := (List.range' p (t1 - p)).foldl (extendStep env c.filePath)
        (inc, ([] : List (List C)), ([] : List (List C))) with hfold1
      have hlines := foldl_extendStep_lines env c.filePath (List.range' p (t1 - p))
        (inc, ([] : List (List C)), ([] : List (List C)))
      have hLL : (fold1.1).leftLines = inc.leftLines := hlines.1
      by_cases h2 : t2 ≤ t1
      · have heq : t1 = t2 := le_antisymm ht12 h2
        have e2 : extendCache env (extendCache env c k) k2 = extendCache env c k := by
          apply extendCache_of_ge env _ fold1.1
          · rw [e1]
          · rw [e1]
            simp only [hLL]
            omega
        rw [e2, e1, extendCache_of_lt env c inc k2 t2 hc ht2 (by omega), ← heq]
      · have hlt2 : t1 < t2 := by omega
        set fold2 := (List.range' t1 (t2 - t1)).foldl (extendStep env c.filePath)
          (fold1.1, ([] : List (List C)), ([] : List (List C))) with hfold2
        have hsplit : List.range' p (t1 - p) ++ List.range' t1 (t2 - t1) =
            List.range' p (t2 - p) := by
          have hr := List.range'_append p (t1 - p) (t2 - t1) 1
          simp only [one_mul] at hr
          rw [show p + (t1 - p) = t1 by omega] at hr
          rw [show t2 - t1 + (t1 - p) = t2 - p by omega] at hr
          exact hr
        have hfull : (List.range' p (t2 - p)).foldl (extendStep env c.filePath)
            (inc, ([] : List (List C)), ([] : List (List C))) =
            (fold2.1, fold1.2.1 ++ fold2.2.1, fold1.2.2 ++ fold2.2.2) := by
          rw [← hsplit, List.foldl_append, ← hfold1]
          rw [show fold1 = (fold1.1, fold1.2.1, fold1.2.2) from rfl]
          rw [foldl_extendStep_decompose env c.filePath (List.range' t1 (t2 - t1))
            fold1.1 fold1.2.1 fold1.2.2]
        have eL : extendCache env (extendCache env c k) k2 =
            { c with
              leftColors := (c.leftColors ++ fold1.2.1) ++ fold2.2.1
              rightColors := (c.rightColors ++ fold1.2.2) ++ fold2.2.2
              processedUpTo := t2
              incremental := some fold2.1 } := by
          rw [e1]
          rw [extendCache_of_lt env _ fold1.1 k2 t2 rfl (by rw [hLL, ht2])
            (by show t1 < t2; omega)]
        have eR : extendCache env c k2 =
            { c with
              leftColors := c.leftColors ++ (fold1.2.1 ++ fold2.2.1)
              rightColors := c.rightColors ++ (fold1.2.2 ++ fold2.2.2)
              processedUpTo := t2
              incremental := some fold2.1 } := by
          rw [extendCache_of_lt env c inc k2 t2 hc ht2 (by omega), hfull]
        rw [eL, eR]
        simp [List.append_assoc]

/-- `extend_cache` with a bound at or below `processed_up_to` is a no-op. -/
theorem extendCache_noop {Syn PSt HSt C : Type} (env : TokEnv Syn PSt HSt C)
    (c : HighlightCache PSt HSt C) (k : Nat) (h : k ≤ c.processedUpTo) :
    extendCache env c k = c := by
  rcases hc : c.incremental with _ | inc
  · exact extendCache_of_none env c k hc
  · exact extendCache_of_ge env c inc k hc (by omega)

/-- C3: `extend_cache` is idempotent (a repeated call with the same bound
changes nothing), is a no-op for bounds at or below `processed_up_to`, and for
`k ≤ k2` the second call is exactly the direct call with the larger bound,
only appending color rows past the ones already computed (the already
computed prefix is left byte-for-byte unchanged). -/
theorem extendCache_monotone_idempotent {Syn PSt HSt C : Type} (env : TokEnv Syn PSt HSt C)
    (c : HighlightCache PSt HSt C) (hw : cacheWF c) (k k2 : Nat) (hk : k ≤ k2) :
    extendCache env (extendCache env c k) k = extendCache env c k ∧
    (k ≤ c.processedUpTo → extendCache env c k = c) ∧
    extendCache env (extendCache env c k) k2 = extendCache env c k2 ∧
    (extendCache env c k2).leftColors.take (extendCache env c k).leftColors.length =
      (extendCache env c k).leftColors ∧
    (extendCache env c k2).rightColors.take (extendCache env c k).rightColors.length =
      (extendCache env c k).rightColors := by
  obtain ⟨s1, s2, hs1, hs2⟩ := extendCache_colors_extend env (extendCache env c k) k2
  refine ⟨extendCache_compose env c k k le_rfl, fun h => extendCache_noop env c k h,
    extendCache_compose env c k k2 hk, ?_, ?_⟩
  · rw [← extendCache_compose env c k k2 hk, hs1, List.take_left]
  · rw [← extendCache_compose env c k k2 hk, hs2, List.take_left]

/-! ### A concrete tokenizer instance

A minimal stateful tokenizer used to evaluate the cache paths on concrete
inputs: the parse state is a counter bumped on every highlighted line and each
line's "colors" are the single entry holding the state the line was entered
with, so any difference in carried-over state is visible in the output.  Its
lookup tables model a file whose grammar is found only by first-line
detection: the extension lookup fails, first-line detection always succeeds. -/
def toyEnv : TokEnv Unit Nat Unit Nat :=
  { findByExt := fun _ => none
    findByFirstLine := fun _ => some ()
    synName := fun _ => "TOY"
    parseInit := fun _ => 0
    hlInit := ()
    hlLine := fun p _ line => (p + 1, (), [p]) }

/-- Two hunks of one content line each: rows 0 and 2 are hunk headers. -/
def toyLines : List String := ["", "a", "", "b"]

/-- The hunk-start indices of `toyLines`. -/
def toyHunkStarts : List Nat := [0, 2]

/-- C1 fails on the code: for a file whose grammar is found by first-line
sniffing (extension lookup fails), the eager `highlight_all_lines` resets the
tokenizer state at the hunk boundary (row 2) and colors row 3 from the
start-of-file state, while `create_cache` + `extend_cache` skips the reset
(src/syntax.rs:205 re-looks the syntax up by extension only and does not reset
when that fails), so the two paths disagree on row 3. -/
theorem highlightAll_ne_extend_on_sniffed_grammar :
    (highlightAllLines toyEnv "noext" toyLines toyLines toyHunkStarts).map (fun r => r.1) =
        some [[], [0], [], [0]] ∧
      (createCache toyEnv "noext" toyLines toyLines toyHunkStarts).map
          (fun c => (extendCache toyEnv c toyLines.length).leftColors) =
        some [[], [0], [], [1]] ∧
      (highlightAllLines toyEnv "noext" toyLines toyLines toyHunkStarts).map (fun r => r.1) ≠
        (createCache toyEnv "noext" toyLines toyLines toyHunkStarts).map
          (fun c => (extendCache toyEnv c toyLines.length).leftColors) := by
  refine ⟨rfl, rfl, ?_⟩
  decide

/-- C2 fails on the code: crossing the hunk boundary at row 2, `extend_cache`
leaves the left parse state at the value `1` it reached inside the first hunk
instead of resetting it to the start-of-file state `parseInit = 0`, so row 3
is colored `[1]` from the carried-over state while a start-of-file state
would color it `[0]` — the first hunk's tokenizer state leaks into the second
hunk. -/
theorem extend_skips_reset_on_sniffed_grammar :
    (createCache toyEnv "noext" toyLines toyLines toyHunkStarts).map
        (fun c => (extendCache toyEnv c 3).incremental.map
          (fun inc => inc.leftParseState)) = some (some 1) ∧
      toyEnv.parseInit () = 0 ∧
      (createCache toyEnv "noext" toyLines toyLines toyHunkStarts).map
          (fun c => (extendCache toyEnv c 4).leftColors.getD 3 []) = some [1] ∧
      (toyEnv.hlLine (toyEnv.parseInit ()) toyEnv.hlInit "b").2.2 = [0] := by
  exact ⟨rfl, rfl, rfl, rfl⟩

/-- A concrete incremental cache over `toyLines`, as `create_cache` builds it. -/
def toyCache : HighlightCache Nat Unit Nat :=
  { filePath := "noext"
    leftColors := []
    rightColors := []
    processedUpTo := 0
    incremental := some
      { leftParseState := 0
        leftHighlightState := ()
        rightParseState := 0
        rightHighlightState := ()
        leftLines := toyLines
        rightLines := toyLines
        hunkStarts := toyHunkStarts } }

/-- Witness for C3 at the concrete cache `toyCache` with bounds 2 ≤ 3. -/
theorem extendCache_monotone_idempotent_witness :
    extendCache toyEnv (extendCache toyEnv toyCache 2) 2 = extendCache toyEnv toyCache 2 ∧
    (2 ≤ toyCache.processedUpTo → extendCache toyEnv toyCache 2 = toyCache) ∧
    extendCache toyEnv (extendCache toyEnv toyCache 2) 3 = extendCache toyEnv toyCache 3 ∧
    (extendCache toyEnv toyCache 3).leftColors.take
        (extendCache toyEnv toyCache 2).leftColors.length =
      (extendCache toyEnv toyCache 2).leftColors ∧
    (extendCache toyEnv toyCache 3).rightColors.take
        (extendCache toyEnv toyCache 2).rightColors.length =
      (extendCache toyEnv toyCache 2).rightColors :=
  extendCache_monotone_idempotent toyEnv toyCache
    (by simp [cacheWF, toyCache, toyLines]) 2 3 (by omega)

/-! ## Diff refresh (`App::refresh_diff`, src/app.rs:399-431)

The repository access `repo.diff_workdir` is external (git2), so it is a
function parameter `diffWorkdir : Option String → Except String DiffStateM`.
The state below projects the `App` fields `refresh_diff` touches that matter
to its observable outcome: the diff state, base ref, status message, scroll
positions, the caches it drops and the search matches it resets.  The
selected-tree-index bookkeeping (app.rs:410-420) and the respawn of the
background highlight worker (app.rs:426-429), which only affect fields not
modelled here, are elided. -/

/-- `DiffStats` from src/git/diff.rs. -/
structure DiffStats where
  additions : Nat
  deletions : Nat
deriving DecidableEq

/-- `DiffState` from src/git/diff.rs. -/
structure DiffStateM where
  files : List FileDiff
  branchName : String
  stats : DiffStats
deriving DecidableEq

/-- The projection of `App` state read and written by `refresh_diff`. -/
structure AppRefreshState where
  diffBaseRef : Option String
  diffState : DiffStateM
  statusMessage : Option String
  diffScrollY : Nat
  diffScrollX : Nat
  highlightCachePresent : Bool
  contentLinesCachePresent : Bool
  searchMatchCount : Nat
deriving DecidableEq

/-- `App::refresh_diff` (src/app.rs:399-431): try the configured base ref; on
failure clear the base ref, recompute against the default base (`?` propagates
a second failure), and record the fallback status message — which the tail of
the function (app.rs:421-428) then unconditionally overwrites with `None`
along with resetting scroll, caches and search matches. -/
def refreshDiff (diffWorkdir : Option String → Except String DiffStateM)
    (s : AppRefreshState) : Except String AppRefreshState :=
  match
    (match diffWorkdir s.diffBaseRef with
     | Except.ok st => Except.ok { s with diffState := st }
     | Except.error e =>
       match diffWorkdir none with
       | Except.ok st =>
         Except.ok { s with diffBaseRef := none
                            diffState := st
                            statusMessage := some ("Invalid ref, fell back to HEAD: " ++ e) }
       | Except.error e2 => Except.error e2)
  with
  | Except.error e2 => Except.error e2
  | Except.ok s1 =>
    Except.ok { s1 with diffScrollY := 0
                        diffScrollX := 0
                        statusMessage := none
                        highlightCachePresent := false
                        contentLinesCachePresent := false
                        searchMatchCount := 0 }

/-- An empty diff state used as the fallback result in the C4 evaluation. -/
def fallbackDiffState : DiffStateM :=
  { files := [], branchName := "main", stats := { additions := 0, deletions := 0 } }

/-- A diff collaborator for which every explicit base ref fails to resolve and
the default base succeeds. -/
def badRefWorkdir : Option String → Except String DiffStateM :=
  fun base =>
    match base with
    | some r => Except.error ("Cannot resolve " ++ r)
    | none => Except.ok fallbackDiffState

/-- An app state holding an unresolvable base ref. -/
def staleRefApp : AppRefreshState :=
  { diffBaseRef := some "gone-branch"
    diffState := fallbackDiffState
    statusMessage := none
    diffScrollY := 7
    diffScrollX := 3
    highlightCachePresent := true
    contentLinesCachePresent := true
    searchMatchCount := 5 }

/-- C4 fails on the code: with an unresolvable base ref, `refresh_diff` does
recover — the base ref is cleared, the diff is recomputed against the default
base and no error escapes — but the fallback status message written at
app.rs:406 is unconditionally overwritten with `None` at app.rs:423, so after
`refresh_diff` returns no status message reports the fallback. -/
theorem refreshDiff_clears_fallback_message :
    refreshDiff badRefWorkdir staleRefApp =
      Except.ok { diffBaseRef := none
                  diffState := fallbackDiffState
                  statusMessage := none
                  diffScrollY := 0
                  diffScrollX := 0
                  highlightCachePresent := false
                  contentLinesCachePresent := false
                  searchMatchCount := 0 } ∧
      (refreshDiff badRefWorkdir staleRefApp).toOption.map
        (fun s => s.statusMessage) = some none := by
  exact ⟨rfl, rfl⟩

/-! ## Cursor, modes and visual yank (`src/app.rs`) -/

/-- `CursorPos` from src/app.rs:234-239. -/
structure CursorPos where
  row : Nat
  col : Nat
  side : DiffSide
deriving DecidableEq

/-- `DiffViewMode` from src/app.rs:85-91. -/
inductive DiffViewMode
  | Scroll
  | Normal
  | Visual
  | VisualLine
deriving DecidableEq

/-- `App::ordered_selection` (src/app.rs:2050-2058): normalize the (anchor,
live cursor) pair to (start, end) by row, then column. -/
def orderedSelection (anchor cursorPos : CursorPos) : CursorPos × CursorPos :=
  if anchor.row < cursorPos.row ∨ (anchor.row = cursorPos.row ∧ anchor.col ≤ cursorPos.col)
  then (anchor, cursorPos)
  else (cursorPos, anchor)

/-- `App::yank_selection` (src/app.rs:1999-2048), as a function of the mode,
the visual anchor, the live cursor and the flattened content lines.  Rust's
`chars[s..]`, `chars[..e]` and `chars[s..e]` become `drop`/`take` (the source
clamps `s` and `e` with `.min(chars.len())` first, and `s ≤ e` holds because
the selection is ordered, so the slices never panic). -/
def yankSelection (mode : DiffViewMode) (visualAnchor : Option CursorPos)
    (cursorPos : CursorPos) (lines : List String) : String :=
  match visualAnchor with
  | none => ""
  | some anchor =>
    match mode with
    | DiffViewMode.VisualLine =>
      let startRow := min anchor.row cursorPos.row
      let endRow := max anchor.row cursorPos.row
      String.intercalate "\n"
        ((List.range' startRow (endRow + 1 - startRow)).filterMap (fun r => lines.get? r))
    | DiffViewMode.Visual =>
      let se := orderedSelection anchor cursorPos
      if (se.1).row = (se.2).row then
        match lines.get? (se.1).row with
        | some line =>
          let chars := line.data
          let s := min (se.1).col chars.length
          let t := min ((se.2).col + 1) chars.length
          String.mk ((chars.drop s).take (t - s))
        | none => ""
      else
        (List.range' (se.1).row ((se.2).row + 1 - (se.1).row)).foldl (fun acc r =>
          match lines.get? r with
          | none => acc
          | some line =>
            let chars := line.data
            if r = (se.1).row then
              acc ++ String.mk (chars.drop (min (se.1).col chars.length))
            else if r = (se.2).row then
              acc ++ "\n" ++ String.mk (chars.take (min ((se.2).col + 1) chars.length))
            else
              acc ++ "\n" ++ line) ""
    | _ => ""

/-- Selection normalization is endpoint-symmetric except when both endpoints
share row and column (where the two ordered pairs differ only in the `side`
fields, which the yank never reads). -/
theorem orderedSelection_symm (a c : CursorPos) :
    orderedSelection a c = orderedSelection c a ∨ (a.row = c.row ∧ a.col = c.col) := by
  unfold orderedSelection
  rcases Nat.lt_trichotomy a.row c.row with h | h | h
  · left
    rw [if_pos (Or.inl h), if_neg (by omega)]
  · rcases Nat.lt_trichotomy a.col c.col with h2 | h2 | h2
    · left
      rw [if_pos (Or.inr ⟨h, by omega⟩), if_neg (by omega)]
    · right
      exact ⟨h, h2⟩
    · left
      rw [if_neg (by omega), if_pos (Or.inr ⟨h.symm, by omega⟩)]
  · left
    rw [if_neg (by omega), if_pos (Or.inl h)]

/-- C8: visual-mode yank is symmetric in its endpoints — for any two positions
in the same flattened buffer, yanking with anchor `a` and cursor `c` gives the
same text as with anchor `c` and cursor `a`, in both `Visual` and
`VisualLine` modes. -/
theorem yankSelection_symmetric (lines : List String) (a c : CursorPos) :
    yankSelection DiffViewMode.Visual (some a) c lines =
      yankSelection DiffViewMode.Visual (some c) a lines ∧
    yankSelection DiffViewMode.VisualLine (some a) c lines =
      yankSelection DiffViewMode.VisualLine (some c) a lines := by
  constructor
  · rcases orderedSelection_symm a c with h | ⟨hr, hcol⟩
    · simp only [yankSelection, h]
    · simp only [yankSelection, orderedSelection]
      rw [if_pos (Or.inr ⟨hr, le_of_eq hcol⟩), if_pos (Or.inr ⟨hr.symm, le_of_eq hcol.symm⟩)]
      simp only
      rw [if_pos hr, if_pos hr.symm, hr, hcol]
  · simp only [yankSelection]
    rw [Nat.min_comm, Nat.max_comm]

/-! ## Search navigation (`App::jump_to_match`, src/app.rs:2306-2376) -/

/-- `SearchMatch` from src/app.rs:102-114: the five search origins; only the
diff-line variant carries sub-line column bounds. -/
inductive SearchMatch
  | DiffLine (row colStart colEnd : Nat) (side : DiffSide)
  | TreeEntry (idx : Nat)
  | CommitEntry (idx : Nat)
  | BranchEntry (idx : Nat)
  | ReflogEntry (idx : Nat)
deriving DecidableEq

/-- The match list and cyclic index of `SearchState` that `jump_to_match`
navigates (source field names `matches` / `current_match_idx`; `matches` is a
reserved word in Lean, hence `matchList`). -/
structure SearchNav where
  matchList : List SearchMatch
  currentMatchIdx : Option Nat
deriving DecidableEq

/-- The index-cycling core of `App::jump_to_match` (src/app.rs:2317-2339),
reached when a query is active: with no matches the state is unchanged (the
code only emits a "Pattern not found" message); otherwise the current index
advances (or retreats) cyclically over the match list, starting at the first
(or last) match when no current index exists.  The subsequent
cursor/scroll placement on the selected match (app.rs:2341-2375) mutates
fields outside this structure. -/
def jumpToMatchIdx (forward : Bool) (s : SearchNav) : SearchNav :=
  if s.matchList.isEmpty then s
  else
    let total := s.matchList.length
    let newIdx :=
      match s.currentMatchIdx with
      | some idx => if forward then (idx + 1) % total else (idx + total - 1) % total
      | none => if forward then 0 else total - 1
    { s with currentMatchIdx := some newIdx }

theorem jumpToMatchIdx_forward_iterate :
    ∀ (k : Nat) (s : SearchNav) (i : Nat), s.currentMatchIdx = some i →
      i < s.matchList.length →
      (Nat.iterate (jumpToMatchIdx true) k s).matchList = s.matchList ∧
      (Nat.iterate (jumpToMatchIdx true) k s).currentMatchIdx =
        some ((i + k) % s.matchList.length)
  | 0, s, i, hidx, hi => by
    simp [Nat.iterate, hidx, Nat.mod_eq_of_lt hi]
  | k + 1, s, i, hidx, hi => by
    have hne : s.matchList.isEmpty = false := by
      cases hm : s.matchList with
      | nil => rw [hm] at hi; simp at hi
      | cons a l => simp
    have hstep : jumpToMatchIdx true s =
        { s with currentMatchIdx := some ((i + 1) % s.matchList.length) } := by
      unfold jumpToMatchIdx
      rw [hne, hidx]
      simp
    have hlt : (i + 1) % s.matchList.length < s.matchList.length :=
      Nat.mod_lt _ (by omega)
    have ih := jumpToMatchIdx_forward_iterate k (jumpToMatchIdx true s)
      ((i + 1) % s.matchList.length) (by rw [hstep]) (by rw [hstep]; exact hlt)
    rw [Function.iterate_succ_apply]
    refine ⟨ih.1.trans (by rw [hstep]), ?_⟩
    rw [ih.2]
    rw [show (jumpToMatchIdx true s).matchList = s.matchList from by rw [hstep]]
    rw [Nat.mod_add_mod]
    rw [show i + 1 + k = i + (k + 1) by omega]

/-- C9: search navigation is cyclic — with `N ≥ 1` matches and a current match
index set, `N` forward jumps return the index to its starting value, and a
forward jump followed by a backward jump returns it to its original value. -/
theorem jumpToMatchIdx_cyclic (s : SearchNav) (i : Nat)
    (hidx : s.currentMatchIdx = some i) (hi : i < s.matchList.length) :
    (Nat.iterate (jumpToMatchIdx true) s.matchList.length s).currentMatchIdx = some i ∧
    (jumpToMatchIdx false (jumpToMatchIdx true s)).currentMatchIdx = some i := by
  have hn : 0 < s.matchList.length := by omega
  constructor
  · rw [(jumpToMatchIdx_forward_iterate s.matchList.length s i hidx hi).2]
    rw [Nat.add_mod_right, Nat.mod_eq_of_lt hi]
  · have hne : s.matchList.isEmpty = false := by
      cases hm : s.matchList with
      | nil => rw [hm] at hi; simp at hi
      | cons a l => simp
    have hstep : jumpToMatchIdx true s =
        { s with currentMatchIdx := some ((i + 1) % s.matchList.length) } := by
      unfold jumpToMatchIdx
      rw [hne, hidx]
      simp
    rw [hstep]
    unfold jumpToMatchIdx
    simp [hne]
    by_cases hcase : i + 1 = s.matchList.length
    · rw [hcase, Nat.mod_self]
      rw [show 0 + s.matchList.length - 1 = s.matchList.length - 1 by omega]
      rw [Nat.mod_eq_of_lt (by omega)]
      omega
    · rw [Nat.mod_eq_of_lt (show i + 1 < s.matchList.length by omega)]
      rw [show i + 1 + s.matchList.length - 1 = i + s.matchList.length by omega]
      rw [Nat.add_mod_right, Nat.mod_eq_of_lt hi]

/-- A two-element match list with the current index on the first match. -/
def exampleSearchNav : SearchNav :=
  { matchList := [SearchMatch.TreeEntry 0, SearchMatch.TreeEntry 1]
    currentMatchIdx := some 0 }

/-- Witness for C9 on a concrete two-match list. -/
theorem jumpToMatchIdx_cyclic_witness :
    (Nat.iterate (jumpToMatchIdx true) exampleSearchNav.matchList.length
      exampleSearchNav).currentMatchIdx = some 0 ∧
    (jumpToMatchIdx false (jumpToMatchIdx true exampleSearchNav)).currentMatchIdx =
      some 0 :=
  jumpToMatchIdx_cyclic exampleSearchNav 0 rfl (by decide)

/-! ## Cursor motions (`App::handle_diff_normal_key` / visual-mode motions,
src/app.rs:1385-1543, 1672-1819, 1884-1997, 2060-2133, 2341-2358)

The motions operate over the flattened per-side buffers (`content_lines`).
The state is the cursor; the `visual_anchor` assignments of the text-object
selections mutate a separate field and are not part of the cursor, so they do
not appear here.  `applyMotion` returns `none` exactly where the Rust code
panics (`select_text_object_delim` indexes `chars[0]` of an empty line,
src/app.rs:2109-2110). -/

/-- Select the flattened buffer of one side, as `content_lines` does for
`cursor_pos.side`. -/
def linesOf (left right : List String) (side : DiffSide) : List String :=
  match side with
  | DiffSide.Left => left
  | DiffSide.Right => right

/-- `App::line_len_at` (src/app.rs:1995-1997):
`lines.get(row).map(|l| l.chars().count().max(1)).unwrap_or(1)`. -/
def lineLenAt (lines : List String) (r : Nat) : Nat :=
  ((lines.get? r).map (fun l => max l.length 1)).getD 1

/-- `App::current_line_len` (src/app.rs:1877-1882): `line_len_at` at the
cursor row. -/
def currentLineLen (lines : List String) (cur : CursorPos) : Nat :=
  lineLenAt lines cur.row

/-- `App::clamp_col` (src/app.rs:1884-1889). -/
def clampCol (lines : List String) (cur : CursorPos) : CursorPos :=
  if cur.col ≥ currentLineLen lines cur then
    { cur with col := currentLineLen lines cur - 1 }
  else cur

/-- `lines[row].chars().collect()`; total here via `getD ""` — every caller
indexes a row that is in bounds whenever the cursor row is (which the
invariant theorems track). -/
def lineCharsAt (lines : List String) (r : Nat) : List Char :=
  ((lines.get? r).getD "").data

/-- A `while col < line.len() && p(line[col]) { col += 1 }` scan: the final
column after skipping the maximal run satisfying `p` from `col`. -/
def skipWhile (p : Char → Bool) (line : List Char) (col : Nat) : Nat :=
  col + ((line.drop col).takeWhile p).length

/-- A `while col > 0 && cond(col) { col -= 1 }` scan. -/
def whileDec (cond : Nat → Bool) : Nat → Nat
  | 0 => 0
  | c + 1 => if cond (c + 1) then whileDec cond c else c + 1

/-- `App::move_word_forward` (src/app.rs:1904-1933). -/
def moveWordForward (lines : List String) (cur : CursorPos) : CursorPos :=
  if lines.length = 0 then cur
  else
    let line := lineCharsAt lines cur.row
    let c1 := skipWhile (fun ch => !ch.isWhitespace) line cur.col
    let c2 := skipWhile (fun ch => ch.isWhitespace) line c1
    if c2 ≥ line.length ∧ cur.row + 1 < lines.length then
      let nextLine := lineCharsAt lines (cur.row + 1)
      let c3 := skipWhile (fun ch => ch.isWhitespace) nextLine 0
      { cur with row := cur.row + 1, col := min c3 (lineLenAt lines (cur.row + 1) - 1) }
    else
      { cur with col := min c2 (lineLenAt lines cur.row - 1) }

/-- `App::move_word_backward` (src/app.rs:1935-1965). -/
def moveWordBackward (lines : List String) (cur : CursorPos) : CursorPos :=
  if lines.isEmpty then cur
  else
    let line := lineCharsAt lines cur.row
    if cur.col = 0 then
      if cur.row > 0 then
        { cur with row := cur.row - 1, col := lineLenAt lines (cur.row - 1) - 1 }
      else cur
    else
      let c1 := whileDec (fun c => ((line.get? c).map Char.isWhitespace).getD false)
        (cur.col - 1)
      let c2 := whileDec
        (fun c => ((line.get? (c - 1)).map (fun ch => !ch.isWhitespace)).getD false) c1
      { cur with col := c2 }

/-- `App::move_word_end` (src/app.rs:1967-1993). -/
def moveWordEnd (lines : List String) (cur : CursorPos) : CursorPos :=
  if lines.length = 0 then cur
  else
    let line := lineCharsAt lines cur.row
    let rc :=
      if cur.col + 1 ≥ line.length ∧ cur.row + 1 < lines.length then (cur.row + 1, 0)
      else (cur.row, cur.col + 1)
    let curLine := lineCharsAt lines rc.1
    let c1 := skipWhile (fun ch => ch.isWhitespace) curLine rc.2
    let c2 := c1 + ((curLine.drop (c1 + 1)).takeWhile (fun ch => !ch.isWhitespace)).length
    { cur with row := rc.1, col := min c2 (lineLenAt lines rc.1 - 1) }

/-- The cursor component of `App::select_text_object_word`
(src/app.rs:2076-2101): the cursor moves to the end of the word under it
(`around` also swallowing trailing whitespace); the anchor assignment is a
different field. -/
def textObjWordCursor (inner : Bool) (lines : List String) (cur : CursorPos) : CursorPos :=
  match lines.get? cur.row with
  | none => cur
  | some line =>
    let chars := line.data
    if chars.isEmpty then cur
    else
      let col := min cur.col (chars.length - 1)
      let e1 := col + ((chars.drop (col + 1)).takeWhile (fun ch => !ch.isWhitespace)).length
      let e2 :=
        if inner then e1
        else e1 + ((chars.drop (e1 + 1)).takeWhile (fun ch => ch.isWhitespace)).length
      { cur with col := e2 }

/-- The cursor component of `App::select_text_object_delim`
(src/app.rs:2103-2133): scan backward (from the clamped column) for the
opening delimiter and forward for the closing one; on success the cursor
lands on (inner: just before) the closing delimiter.  On an empty line the
Rust backward scan `for i in (0..=col).rev() { if chars[i] == open ... }`
evaluates `chars[0]` of an empty vector and panics: that is the `none`
result. -/
def textObjDelimCursor (inner : Bool) (oc cc : Char) (lines : List String)
    (cur : CursorPos) : Option CursorPos :=
  match lines.get? cur.row with
  | none => some cur
  | some line =>
    let chars := line.data
    if chars.isEmpty then none
    else
      let col := min cur.col (chars.length - 1)
      let openPos := ((List.range (col + 1)).reverse).find? (fun i => chars.getD i ' ' = oc)
      let closePos := (List.range' (col + 1) (chars.length - (col + 1))).find?
        (fun i => chars.getD i ' ' = cc)
      match openPos, closePos with
      | some _, some cp =>
        some (if inner then { cur with col := cp - 1 } else { cur with col := cp })
      | _, _ => some cur

/-- `for _ in 0..n { f }`. -/
def applyN {α : Type} (f : α → α) : Nat → α → α
  | 0, a => a
  | n + 1, a => applyN f n (f a)

/-- The cursor operations of the claim, as dispatched by
`handle_diff_normal_key` / `handle_diff_visual_key`: char motions `h`/`l`,
line motions `j`/`k`, word motions `w`/`b`/`e`, line bounds `0`/`$`,
go-to-line `gg`/`G` (with optional/consumed count), the `Ctrl-w h`/`Ctrl-w l`
side switch, the text objects, and the cursor placement of a search-match
jump. -/
inductive Motion
  | charLeft (n : Nat)
  | charRight (n : Nat)
  | lineDown (n : Nat)
  | lineUp (n : Nat)
  | wordForward (n : Nat)
  | wordBackward (n : Nat)
  | wordEnd (n : Nat)
  | lineStart
  | lineEnd
  | goTop (cnt : Option Nat)
  | goLine (n : Nat)
  | sideSwitch (s : DiffSide)
  | textObjWord (inner : Bool)
  | textObjDelim (inner : Bool) (oc cc : Char)
  | jumpMatch (r c : Nat) (s : DiffSide)
deriving DecidableEq

/-- One key dispatch of the motion handlers (src/app.rs:1385-1543 and
1720-1818): the handler fetches `content_lines()` for the cursor's current
side, returns early (leaving the cursor alone) when it is empty — the
pending-key branches (`Ctrl-w h/l` side switch at 1396-1404, `gg` at
1411-1429) and the text objects run before that guard — and otherwise moves
the cursor exactly as the corresponding `match` arm does.  A search-match
jump (src/app.rs:2352-2355) overwrites row, column and side with the match's.
`none` models the panic of `select_text_object_delim` on an empty line. -/
def applyMotion (left right : List String) (cur : CursorPos) (m : Motion) :
    Option CursorPos :=
  let lines := linesOf left right cur.side
  match m with
  | Motion.sideSwitch s => some { cur with side := s }
  | Motion.goTop cnt =>
    let cur1 :=
      match cnt with
      | some n => { cur with row := min (n - 1) (lines.length - 1), col := 0 }
      | none => { cur with row := 0, col := 0 }
    some (clampCol lines cur1)
  | Motion.textObjWord inner => some (textObjWordCursor inner lines cur)
  | Motion.textObjDelim inner oc cc => textObjDelimCursor inner oc cc lines cur
  | Motion.charLeft n =>
    if lines.length = 0 then some cur else some { cur with col := cur.col - n }
  | Motion.charRight n =>
    if lines.length = 0 then some cur
    else some { cur with col := min (cur.col + n) (currentLineLen lines cur - 1) }
  | Motion.lineDown n =>
    if lines.length = 0 then some cur
    else some (clampCol lines { cur with row := min (cur.row + n) (lines.length - 1) })
  | Motion.lineUp n =>
    if lines.length = 0 then some cur
    else some (clampCol lines { cur with row := cur.row - n })
  | Motion.wordForward n =>
    if lines.length = 0 then some cur else some (applyN (moveWordForward lines) n cur)
  | Motion.wordBackward n =>
    if lines.length = 0 then some cur else some (applyN (moveWordBackward lines) n cur)
  | Motion.wordEnd n =>
    if lines.length = 0 then some cur else some (applyN (moveWordEnd lines) n cur)
  | Motion.lineStart =>
    if lines.length = 0 then some cur else some { cur with col := 0 }
  | Motion.lineEnd =>
    if lines.length = 0 then some cur
    else some { cur with col := currentLineLen lines cur - 1 }
  | Motion.goLine n =>
    if lines.length = 0 then some cur
    else if n > 1 then
      some (clampCol lines { cur with row := min (n - 1) (lines.length - 1), col := 0 })
    else
      some (clampCol lines { cur with row := lines.length - 1, col := 0 })
  | Motion.jumpMatch r c s =>
    if lines.length = 0 then some cur else some { row := r, col := c, side := s }

/-- Sequencing of key dispatches; `none` (a panic) aborts the sequence. -/
def applyMotions (left right : List String) : List Motion → CursorPos → Option CursorPos
  | [], cur => some cur
  | mo :: rest, cur =>
    match applyMotion left right cur mo with
    | none => none
    | some c1 => applyMotions left right rest c1

/-- The cursor bound of the claim: row within the current side's buffer and
column within `[0, max(line_length, 1))` of the line under the cursor. -/
def ValidCursor (left right : List String) (cur : CursorPos) : Prop :=
  cur.row < (linesOf left right cur.side).length ∧
  cur.col < lineLenAt (linesOf left right cur.side) cur.row

instance (left right : List String) (cur : CursorPos) :
    Decidable (ValidCursor left right cur) :=
  inferInstanceAs (Decidable (cur.row < (linesOf left right cur.side).length ∧
    cur.col < lineLenAt (linesOf left right cur.side) cur.row))

/-- The row half of the invariant. -/
def RowValid (left right : List String) (cur : CursorPos) : Prop :=
  cur.row < (linesOf left right cur.side).length

instance (left right : List String) (cur : CursorPos) :
    Decidable (RowValid left right cur) :=
  inferInstanceAs (Decidable (cur.row < (linesOf left right cur.side).length))

/-- A search-match jump only ever targets a match produced over the same
buffers, whose row/column are in bounds; other motions carry no data. -/
def motionOK (left right : List String) : Motion → Bool
  | Motion.jumpMatch r c s =>
    decide (r < (linesOf left right s).length) &&
      decide (c < lineLenAt (linesOf left right s) r)
  | _ => true

/-- Whether a motion is the `Ctrl-w h`/`Ctrl-w l` side switch. -/
def isSideSwitch : Motion → Bool
  | Motion.sideSwitch _ => true
  | _ => false

theorem lineLenAt_pos (lines : List String) (r : Nat) : 1 ≤ lineLenAt lines r := by
  unfold lineLenAt
  cases h : lines.get? r <;> simp

theorem clampCol_side (lines : List String) (cur : CursorPos) :
    (clampCol lines cur).side = cur.side := by
  unfold clampCol
  split <;> rfl

theorem clampCol_row (lines : List String) (cur : CursorPos) :
    (clampCol lines cur).row = cur.row := by
  unfold clampCol
  split <;> rfl

theorem clampCol_col_lt (lines : List String) (cur : CursorPos) :
    (clampCol lines cur).col < lineLenAt lines cur.row := by
  have h1 := lineLenAt_pos lines cur.row
  unfold clampCol
  split
  · exact show currentLineLen lines cur - 1 < lineLenAt lines cur.row from by
      unfold currentLineLen
      omega
  · next h =>
    unfold currentLineLen at h
    omega

theorem moveWordForward_valid (lines : List String) (cur : CursorPos)
    (hrow : cur.row < lines.length) :
    (moveWordForward lines cur).row < lines.length ∧
    (moveWordForward lines cur).col < lineLenAt lines (moveWordForward lines cur).row ∧
    (moveWordForward lines cur).side = cur.side := by
  unfold moveWordForward
  rw [if_neg (by omega)]
  simp only []
  split
  · next h =>
    have h1 := lineLenAt_pos lines (cur.row + 1)
    refine ⟨?_, ?_, ?_⟩
    · exact h.2
    · simp
      omega
    · trivial
  · next h =>
    have h1 := lineLenAt_pos lines cur.row
    refine ⟨?_, ?_, ?_⟩
    · simpa using hrow
    · simp
      omega
    · trivial

theorem moveWordEnd_valid (lines : List String) (cur : CursorPos)
    (hrow : cur.row < lines.length) :
    (moveWordEnd lines cur).row < lines.length ∧
    (moveWordEnd lines cur).col < lineLenAt lines (moveWordEnd lines cur).row ∧
    (moveWordEnd lines cur).side = cur.side := by
  unfold moveWordEnd
  rw [if_neg (by omega)]
  simp only []
  split
  · next h =>
    have h1 := lineLenAt_pos lines (cur.row + 1)
    refine ⟨?_, ?_, ?_⟩
    · exact h.2
    · simp
      omega
    · trivial
  · next h =>
    have h1 := lineLenAt_pos lines cur.row
    refine ⟨?_, ?_, ?_⟩
    · simpa using hrow
    · simp
      omega
    · trivial

theorem whileDec_le (cond : Nat → Bool) : ∀ c : Nat, whileDec cond c ≤ c
  | 0 => le_refl 0
  | c + 1 => by
    unfold whileDec
    split
    · exact le_trans (whileDec_le cond c) (by omega)
    · exact le_refl _

theorem moveWordBackward_row (lines : List String) (cur : CursorPos)
    (hrow : cur.row < lines.length) :
    (moveWordBackward lines cur).row < lines.length ∧
    (moveWordBackward lines cur).side = cur.side := by
  unfold moveWordBackward
  split
  · exact ⟨hrow, rfl⟩
  · simp only []
    split
    · split
      · exact ⟨show cur.row - 1 < lines.length by omega, rfl⟩
      · exact ⟨hrow, rfl⟩
    · exact ⟨hrow, rfl⟩

theorem moveWordBackward_valid (lines : List String) (cur : CursorPos)
    (hrow : cur.row < lines.length) (hcol : cur.col < lineLenAt lines cur.row) :
    (moveWordBackward lines cur).row < lines.length ∧
    (moveWordBackward lines cur).col <
      lineLenAt lines (moveWordBackward lines cur).row ∧
    (moveWordBackward lines cur).side = cur.side := by
  unfold moveWordBackward
  split
  · exact ⟨hrow, hcol, rfl⟩
  · simp only []
    split
    · next hc0 =>
      split
      · next hr0 =>
        have h1 := lineLenAt_pos lines (cur.row - 1)
        exact ⟨show cur.row - 1 < lines.length by omega,
          show lineLenAt lines (cur.row - 1) - 1 < lineLenAt lines (cur.row - 1) by omega,
          rfl⟩
      · exact ⟨hrow, hcol, rfl⟩
    · next hc0 =>
      refine ⟨hrow, ?_, rfl⟩
      exact lt_of_le_of_lt (le_trans (whileDec_le _ _) (whileDec_le _ _))
        (show cur.col - 1 < lineLenAt lines cur.row by omega)

theorem textObjWordCursor_shape (inner : Bool) (lines : List String) (cur : CursorPos) :
    (textObjWordCursor inner lines cur).row = cur.row ∧
    (textObjWordCursor inner lines cur).side = cur.side := by
  unfold textObjWordCursor
  split
  · exact ⟨rfl, rfl⟩
  · simp only []
    split
    · exact ⟨rfl, rfl⟩
    · exact ⟨rfl, rfl⟩

theorem textObjWordCursor_valid (inner : Bool) (lines : List String) (cur : CursorPos)
    (hrow : cur.row < lines.length) (hcol : cur.col < lineLenAt lines cur.row) :
    (textObjWordCursor inner lines cur).col <
      lineLenAt lines (textObjWordCursor inner lines cur).row := by
  have hshape := textObjWordCursor_shape inner lines cur
  rw [hshape.1]
  unfold textObjWordCursor
  split
  · exact hcol
  · next line hline =>
    simp only []
    split
    · exact hcol
    · next hne =>
      have hlen : 1 ≤ line.data.length := by
        cases hd : line.data
        · rw [hd] at hne; simp at hne
        · simp [hd]
      have hL : lineLenAt lines cur.row = max line.length 1 := by
        unfold lineLenAt
        rw [hline]
        rfl
      have hlendata : line.length = line.data.length := rfl
      have hrun1 := List.Sublist.length_le
        (List.takeWhile_sublist
          (l := line.data.drop (min cur.col (line.data.length - 1) + 1))
          (p := fun ch => !ch.isWhitespace))
      rw [List.length_drop] at hrun1
      set e1 := min cur.col (line.data.length - 1) +
        ((line.data.drop (min cur.col (line.data.length - 1) + 1)).takeWhile
          (fun ch => !ch.isWhitespace)).length with he1set
      have hrun2 := List.Sublist.length_le
        (List.takeWhile_sublist (l := line.data.drop (e1 + 1))
          (p := fun ch => ch.isWhitespace))
      rw [List.length_drop] at hrun2
      have he1 : e1 ≤ line.data.length - 1 := by omega
      split
      · exact show e1 < lineLenAt lines cur.row by rw [hL]; omega
      · exact show e1 + ((line.data.drop (e1 + 1)).takeWhile
            (fun ch => ch.isWhitespace)).length < lineLenAt lines cur.row by
          rw [hL]
          omega

theorem textObjDelimCursor_valid (inner : Bool) (oc cc : Char) (lines : List String)
    (cur : CursorPos) (hcol : cur.col < lineLenAt lines cur.row) :
    ∀ cur', textObjDelimCursor inner oc cc lines cur = some cur' →
      cur'.row = cur.row ∧ cur'.side = cur.side ∧
        cur'.col < lineLenAt lines cur.row := by
  intro cur' heq
  unfold textObjDelimCursor at heq
  split at heq
  · injection heq with h3
    subst h3
    exact ⟨rfl, rfl, hcol⟩
  · next line hline =>
    simp only [] at heq
    split at heq
    · cases heq
    · next hne =>
      have hlen : 1 ≤ line.data.length := by
        cases hd : line.data
        · rw [hd] at hne; simp at hne
        · simp [hd]
      have hL : lineLenAt lines cur.row = max line.length 1 := by
        unfold lineLenAt
        rw [hline]
        rfl
      have hlendata : line.length = line.data.length := rfl
      split at heq
      · next v cp h1 h2 =>
        have hmem := List.mem_of_find?_eq_some h2
        have hcplt : cp < line.data.length := by
          have hb := List.mem_range'_1.mp hmem
          omega
        injection heq with h3
        subst h3
        split
        · exact ⟨rfl, rfl, show cp - 1 < lineLenAt lines cur.row by rw [hL]; omega⟩
        · exact ⟨rfl, rfl, show cp < lineLenAt lines cur.row by rw [hL]; omega⟩
      · next hdef =>
        injection heq with h3
        subst h3
        exact ⟨rfl, rfl, hcol⟩

theorem textObjDelimCursor_rowside (inner : Bool) (oc cc : Char) (lines : List String)
    (cur : CursorPos) :
    ∀ cur', textObjDelimCursor inner oc cc lines cur = some cur' →
      cur'.row = cur.row ∧ cur'.side = cur.side := by
  intro cur' heq
  unfold textObjDelimCursor at heq
  split at heq
  · injection heq with h3
    subst h3
    exact ⟨rfl, rfl⟩
  · simp only [] at heq
    split at heq
    · cases heq
    · split at heq
      · next v cp h1 h2 =>
        injection heq with h3
        subst h3
        split
        · exact ⟨rfl, rfl⟩
        · exact ⟨rfl, rfl⟩
      · injection heq with h3
        subst h3
        exact ⟨rfl, rfl⟩

theorem applyN_pres {α : Type} (f : α → α) (P : α → Prop) (hf : ∀ a, P a → P (f a)) :
    ∀ (n : Nat) (a : α), P a → P (applyN f n a)
  | 0, _, ha => ha
  | n + 1, a, ha => applyN_pres f P hf n (f a) (hf a ha)

theorem linesOf_length_eq (left right : List String) (hlen : left.length = right.length)
    (s1 s2 : DiffSide) : (linesOf left right s1).length = (linesOf left right s2).length := by
  cases s1 <;> cases s2 <;> simp [linesOf, hlen]

theorem validCursor_of_side_eq (left right : List String) (cur cur' : CursorPos)
    (hs : cur'.side = cur.side)
    (h1 : cur'.row < (linesOf left right cur.side).length)
    (h2 : cur'.col < lineLenAt (linesOf left right cur.side) cur'.row) :
    ValidCursor left right cur' := by
  unfold ValidCursor
  rw [hs]
  exact ⟨h1, h2⟩

/-- One key dispatch preserves the full cursor bound, for every motion except
the bare side switch. -/
theorem applyMotion_valid (left right : List String) (cur : CursorPos) (m : Motion)
    (hok : motionOK left right m = true) (hns : isSideSwitch m = false)
    (hv : ValidCursor left right cur) :
    ∀ cur', applyMotion left right cur m = some cur' → ValidCursor left right cur' := by
  intro cur' heq
  obtain ⟨hrow, hcol⟩ := hv
  have hpos := lineLenAt_pos (linesOf left right cur.side) cur.row
  cases m with
  | sideSwitch s => simp [isSideSwitch] at hns
  | charLeft n =>
    simp only [applyMotion] at heq
    rw [if_neg (by omega)] at heq
    injection heq with h3
    subst h3
    exact validCursor_of_side_eq left right cur _ rfl hrow
      (show cur.col - n < lineLenAt (linesOf left right cur.side) cur.row by omega)
  | charRight n =>
    simp only [applyMotion] at heq
    rw [if_neg (by omega)] at heq
    injection heq with h3
    subst h3
    refine validCursor_of_side_eq left right cur _ rfl hrow ?_
    exact show min (cur.col + n)
        (currentLineLen (linesOf left right cur.side) cur - 1) <
        lineLenAt (linesOf left right cur.side) cur.row from by
      unfold currentLineLen
      omega
  | lineDown n =>
    simp only [applyMotion] at heq
    rw [if_neg (by omega)] at heq
    injection heq with h3
    subst h3
    have h2 := clampCol_col_lt (linesOf left right cur.side)
      { cur with row := min (cur.row + n) ((linesOf left right cur.side).length - 1) }
    refine validCursor_of_side_eq left right cur _ (clampCol_side _ _) ?_ ?_
    · rw [clampCol_row]
      exact show min (cur.row + n) ((linesOf left right cur.side).length - 1) <
        (linesOf left right cur.side).length by omega
    · rw [clampCol_row]
      exact h2
  | lineUp n =>
    simp only [applyMotion] at heq
    rw [if_neg (by omega)] at heq
    injection heq with h3
    subst h3
    have h2 := clampCol_col_lt (linesOf left right cur.side)
      { cur with row := cur.row - n }
    refine validCursor_of_side_eq left right cur _ (clampCol_side _ _) ?_ ?_
    · rw [clampCol_row]
      exact show cur.row - n < (linesOf left right cur.side).length by omega
    · rw [clampCol_row]
      exact h2
  | wordForward n =>
    simp only [applyMotion] at heq
    rw [if_neg (by omega)] at heq
    injection heq with h3
    subst h3
    have hp := applyN_pres (moveWordForward (linesOf left right cur.side))
      (fun a => a.row < (linesOf left right cur.side).length ∧
        a.col < lineLenAt (linesOf left right cur.side) a.row ∧ a.side = cur.side)
      (fun a ha => by
        obtain ⟨q1, q2, q3⟩ := moveWordForward_valid (linesOf left right cur.side) a ha.1
        exact ⟨q1, q2, q3.trans ha.2.2⟩)
      n cur ⟨hrow, hcol, rfl⟩
    exact validCursor_of_side_eq left right cur _ hp.2.2 hp.1 hp.2.1
  | wordBackward n =>
    simp only [applyMotion] at heq
    rw [if_neg (by omega)] at heq
    injection heq with h3
    subst h3
    have hp := applyN_pres (moveWordBackward (linesOf left right cur.side))
      (fun a => a.row < (linesOf left right cur.side).length ∧
        a.col < lineLenAt (linesOf left right cur.side) a.row ∧ a.side = cur.side)
      (fun a ha => by
        obtain ⟨q1, q2, q3⟩ :=
          moveWordBackward_valid (linesOf left right cur.side) a ha.1 ha.2.1
        exact ⟨q1, q2, q3.trans ha.2.2⟩)
      n cur ⟨hrow, hcol, rfl⟩
    exact validCursor_of_side_eq left right cur _ hp.2.2 hp.1 hp.2.1
  | wordEnd n =>
    simp only [applyMotion] at heq
    rw [if_neg (by omega)] at heq
    injection heq with h3
    subst h3
    have hp := applyN_pres (moveWordEnd (linesOf left right cur.side))
      (fun a => a.row < (linesOf left right cur.side).length ∧
        a.col < lineLenAt (linesOf left right cur.side) a.row ∧ a.side = cur.side)
      (fun a ha => by
        obtain ⟨q1, q2, q3⟩ := moveWordEnd_valid (linesOf left right cur.side) a ha.1
        exact ⟨q1, q2, q3.trans ha.2.2⟩)
      n cur ⟨hrow, hcol, rfl⟩
    exact validCursor_of_side_eq left right cur _ hp.2.2 hp.1 hp.2.1
  | lineStart =>
    simp only [applyMotion] at heq
    rw [if_neg (by omega)] at heq
    injection heq with h3
    subst h3
    exact validCursor_of_side_eq left right cur _ rfl hrow
      (show (0 : Nat) < lineLenAt (linesOf left right cur.side) cur.row by omega)
  | lineEnd =>
    simp only [applyMotion] at heq
    rw [if_neg (by omega)] at heq
    injection heq with h3
    subst h3
    refine validCursor_of_side_eq left right cur _ rfl hrow ?_
    exact show currentLineLen (linesOf left right cur.side) cur - 1 <
        lineLenAt (linesOf left right cur.side) cur.row from by
      unfold currentLineLen
      omega
  | goTop cnt =>
    simp only [applyMotion] at heq
    cases cnt with
    | none =>
      injection heq with h3
      subst h3
      have h2 := clampCol_col_lt (linesOf left right cur.side)
        { cur with row := 0, col := 0 }
      refine validCursor_of_side_eq left right cur _ (clampCol_side _ _) ?_ ?_
      · rw [clampCol_row]
        exact show (0 : Nat) < (linesOf left right cur.side).length by omega
      · rw [clampCol_row]
        exact h2
    | some n =>
      injection heq with h3
      subst h3
      have h2 := clampCol_col_lt (linesOf left right cur.side)
        { cur with row := min (n - 1) ((linesOf left right cur.side).length - 1), col := 0 }
      refine validCursor_of_side_eq left right cur _ (clampCol_side _ _) ?_ ?_
      · rw [clampCol_row]
        exact show min (n - 1) ((linesOf left right cur.side).length - 1) <
          (linesOf left right cur.side).length by omega
      · rw [clampCol_row]
        exact h2
  | goLine n =>
    simp only [applyMotion] at heq
    rw [if_neg (by omega)] at heq
    split at heq
    · injection heq with h3
      subst h3
      have h2 := clampCol_col_lt (linesOf left right cur.side)
        { cur with row := min (n - 1) ((linesOf left right cur.side).length - 1), col := 0 }
      refine validCursor_of_side_eq left right cur _ (clampCol_side _ _) ?_ ?_
      · rw [clampCol_row]
        exact show min (n - 1) ((linesOf left right cur.side).length - 1) <
          (linesOf left right cur.side).length by omega
      · rw [clampCol_row]
        exact h2
    · injection heq with h3
      subst h3
      have h2 := clampCol_col_lt (linesOf left right cur.side)
        { cur with row := (linesOf left right cur.side).length - 1, col := 0 }
      refine validCursor_of_side_eq left right cur _ (clampCol_side _ _) ?_ ?_
      · rw [clampCol_row]
        exact show (linesOf left right cur.side).length - 1 <
          (linesOf left right cur.side).length by omega
      · rw [clampCol_row]
        exact h2
  | textObjWord inner =>
    simp only [applyMotion] at heq
    injection heq with h3
    subst h3
    obtain ⟨q1, q2⟩ := textObjWordCursor_shape inner (linesOf left right cur.side) cur
    refine validCursor_of_side_eq left right cur _ q2 ?_ ?_
    · rw [q1]
      exact hrow
    · exact textObjWordCursor_valid inner (linesOf left right cur.side) cur hrow hcol
  | textObjDelim inner oc cc =>
    simp only [applyMotion] at heq
    obtain ⟨q1, q2, q3⟩ :=
      textObjDelimCursor_valid inner oc cc (linesOf left right cur.side) cur hcol cur' heq
    refine validCursor_of_side_eq left right cur _ q2 ?_ ?_
    · rw [q1]
      exact hrow
    · rw [q1]
      exact q3
  | jumpMatch r c s =>
    simp only [applyMotion] at heq
    rw [if_neg (by omega)] at heq
    injection heq with h3
    subst h3
    simp only [motionOK, Bool.and_eq_true, decide_eq_true_eq] at hok
    exact ⟨hok.1, hok.2⟩

/-- Every key dispatch — the side switch included — keeps the cursor row
inside the (equal-length) buffers. -/
theorem applyMotion_rowValid (left right : List String)
    (hlen : left.length = right.length) (cur : CursorPos) (m : Motion)
    (hok : motionOK left right m = true) (hr : RowValid left right cur) :
    ∀ cur', applyMotion left right cur m = some cur' → RowValid left right cur' := by
  intro cur' heq
  unfold RowValid at hr
  cases m with
  | sideSwitch s =>
    simp only [applyMotion] at heq
    injection heq with h3
    subst h3
    unfold RowValid
    exact lt_of_lt_of_le hr (le_of_eq (linesOf_length_eq left right hlen cur.side s))
  | charLeft n =>
    simp only [applyMotion] at heq
    rw [if_neg (by omega)] at heq
    injection heq with h3
    subst h3
    exact hr
  | charRight n =>
    simp only [applyMotion] at heq
    rw [if_neg (by omega)] at heq
    injection heq with h3
    subst h3
    exact hr
  | lineDown n =>
    simp only [applyMotion] at heq
    rw [if_neg (by omega)] at heq
    injection heq with h3
    subst h3
    unfold RowValid
    rw [clampCol_side, clampCol_row]
    exact show min (cur.row + n) ((linesOf left right cur.side).length - 1) <
      (linesOf left right cur.side).length by omega
  | lineUp n =>
    simp only [applyMotion] at heq
    rw [if_neg (by omega)] at heq
    injection heq with h3
    subst h3
    unfold RowValid
    rw [clampCol_side, clampCol_row]
    exact show cur.row - n < (linesOf left right cur.side).length by omega
  | wordForward n =>
    simp only [applyMotion] at heq
    rw [if_neg (by omega)] at heq
    injection heq with h3
    subst h3
    have hp := applyN_pres (moveWordForward (linesOf left right cur.side))
      (fun a => a.row < (linesOf left right cur.side).length ∧ a.side = cur.side)
      (fun a ha => by
        obtain ⟨q1, _, q3⟩ := moveWordForward_valid (linesOf left right cur.side) a ha.1
        exact ⟨q1, q3.trans ha.2⟩)
      n cur ⟨hr, rfl⟩
    unfold RowValid
    rw [hp.2]
    exact hp.1
  | wordBackward n =>
    simp only [applyMotion] at heq
    rw [if_neg (by omega)] at heq
    injection heq with h3
    subst h3
    have hp := applyN_pres (moveWordBackward (linesOf left right cur.side))
      (fun a => a.row < (linesOf left right cur.side).length ∧ a.side = cur.side)
      (fun a ha => by
        obtain ⟨q1, q3⟩ := moveWordBackward_row (linesOf left right cur.side) a ha.1
        exact ⟨q1, q3.trans ha.2⟩)
      n cur ⟨hr, rfl⟩
    unfold RowValid
    rw [hp.2]
    exact hp.1
  | wordEnd n =>
    simp only [applyMotion] at heq
    rw [if_neg (by omega)] at heq
    injection heq with h3
    subst h3
    have hp := applyN_pres (moveWordEnd (linesOf left right cur.side))
      (fun a => a.row < (linesOf left right cur.side).length ∧ a.side = cur.side)
      (fun a ha => by
        obtain ⟨q1, _, q3⟩ := moveWordEnd_valid (linesOf left right cur.side) a ha.1
        exact ⟨q1, q3.trans ha.2⟩)
      n cur ⟨hr, rfl⟩
    unfold RowValid
    rw [hp.2]
    exact hp.1
  | lineStart =>
    simp only [applyMotion] at heq
    rw [if_neg (by omega)] at heq
    injection heq with h3
    subst h3
    exact hr
  | lineEnd =>
    simp only [applyMotion] at heq
    rw [if_neg (by omega)] at heq
    injection heq with h3
    subst h3
    exact hr
  | goTop cnt =>
    simp only [applyMotion] at heq
    cases cnt with
    | none =>
      injection heq with h3
      subst h3
      unfold RowValid
      rw [clampCol_side, clampCol_row]
      exact show (0 : Nat) < (linesOf left right cur.side).length by omega
    | some n =>
      injection heq with h3
      subst h3
      unfold RowValid
      rw [clampCol_side, clampCol_row]
      exact show min (n - 1) ((linesOf left right cur.side).length - 1) <
        (linesOf left right cur.side).length by omega
  | goLine n =>
    simp only [applyMotion] at heq
    rw [if_neg (by omega)] at heq
    split at heq
    · injection heq with h3
      subst h3
      unfold RowValid
      rw [clampCol_side, clampCol_row]
      exact show min (n - 1) ((linesOf left right cur.side).length - 1) <
        (linesOf left right cur.side).length by omega
    · injection heq with h3
      subst h3
      unfold RowValid
      rw [clampCol_side, clampCol_row]
      exact show (linesOf left right cur.side).length - 1 <
        (linesOf left right cur.side).length by omega
  | textObjWord inner =>
    simp only [applyMotion] at heq
    injection heq with h3
    subst h3
    obtain ⟨q1, q2⟩ := textObjWordCursor_shape inner (linesOf left right cur.side) cur
    unfold RowValid
    rw [q1, q2]
    exact hr
  | textObjDelim inner oc cc =>
    simp only [applyMotion] at heq
    obtain ⟨q1, q2⟩ := textObjDelimCursor_rowside inner oc cc
      (linesOf left right cur.side) cur cur' heq
    unfold RowValid
    rw [q1, q2]
    exact hr
  | jumpMatch r c s =>
    simp only [applyMotion] at heq
    rw [if_neg (by omega)] at heq
    injection heq with h3
    subst h3
    simp only [motionOK, Bool.and_eq_true, decide_eq_true_eq] at hok
    exact hok.1

theorem applyMotions_valid (left right : List String) (ops : List Motion)
    (hok : ∀ mo ∈ ops, motionOK left right mo = true)
    (hns : ∀ mo ∈ ops, isSideSwitch mo = false) :
    ∀ cur, ValidCursor left right cur →
      ∀ cur', applyMotions left right ops cur = some cur' →
        ValidCursor left right cur' := by
  induction ops with
  | nil =>
    intro cur hv cur' happ
    unfold applyMotions at happ
    injection happ with h3
    exact h3 ▸ hv
  | cons mo rest ih =>
    intro cur hv cur' happ
    unfold applyMotions at happ
    cases hstep : applyMotion left right cur mo with
    | none =>
      rw [hstep] at happ
      cases happ
    | some c1 =>
      rw [hstep] at happ
      have hvc1 := applyMotion_valid left right cur mo (hok mo (by simp))
        (hns mo (by simp)) hv c1 hstep
      exact ih (fun x hx => hok x (by simp [hx])) (fun x hx => hns x (by simp [hx]))
        c1 hvc1 cur' happ

theorem applyMotions_rowValid (left right : List String)
    (hlen : left.length = right.length) (ops : List Motion)
    (hok : ∀ mo ∈ ops, motionOK left right mo = true) :
    ∀ cur, RowValid left right cur →
      ∀ cur', applyMotions left right ops cur = some cur' →
        RowValid left right cur' := by
  induction ops with
  | nil =>
    intro cur hr cur' happ
    unfold applyMotions at happ
    injection happ with h3
    exact h3 ▸ hr
  | cons mo rest ih =>
    intro cur hr cur' happ
    unfold applyMotions at happ
    cases hstep : applyMotion left right cur mo with
    | none =>
      rw [hstep] at happ
      cases happ
    | some c1 =>
      rw [hstep] at happ
      have hrc1 := applyMotion_rowValid left right hlen cur mo (hok mo (by simp))
        hr c1 hstep
      exact ih (fun x hx => hok x (by simp [hx])) c1 hrc1 cur' happ

/-- C5, amended: over equal-length side buffers, starting from a valid cursor,
any sequence of the handled cursor operations whose search-match jumps target
in-bounds matches keeps the cursor valid after every step — provided the
sequence contains no bare `Ctrl-w` side switch, which transplants the column
unclamped onto the other side's line; the row bound alone survives every
operation, the side switch included. -/
theorem motion_sequence_valid (left right : List String)
    (hlen : left.length = right.length) (ops : List Motion)
    (hok : ∀ mo ∈ ops, motionOK left right mo = true) (cur : CursorPos)
    (hv : ValidCursor left right cur) :
    ((∀ mo ∈ ops, isSideSwitch mo = false) →
      ∀ n cur', applyMotions left right (ops.take n) cur = some cur' →
        ValidCursor left right cur') ∧
    (∀ n cur', applyMotions left right (ops.take n) cur = some cur' →
      RowValid left right cur') := by
  constructor
  · intro hns n cur' happ
    exact applyMotions_valid left right (ops.take n)
      (fun x hx => hok x (List.take_subset n ops hx))
      (fun x hx => hns x (List.take_subset n ops hx)) cur hv cur' happ
  · intro n cur' happ
    exact applyMotions_rowValid left right hlen (ops.take n)
      (fun x hx => hok x (List.take_subset n ops hx)) cur hv.1 cur' happ

/-- A one-hunk file with a single deleted line: the left buffer is
`["@@", "abc"]`, the right buffer `["@@", ""]`. -/
def exampleOneDeletionFile : FileDiff :=
  { path := "f"
    status := FileStatus.Modified
    hunks := [{ header := "@@"
                rows := [{ left := some { lineNo := 1, content := "abc" }
                           right := none
                           lineType := LineType.Deleted }] }]
    isBinary := false }

/-- C5 as stated is false on the code: from the valid cursor `(row 1, col 2,
Left)` of `exampleOneDeletionFile`, the `Ctrl-w l` side switch
(src/app.rs:1398-1399) keeps `col = 2` while the right-hand line at row 1 is
empty (`max(line_length, 1) = 1`), so one step of the claimed operation set
leaves the cursor out of column range. -/
theorem motion_sequence_valid_counterexample :
    ValidCursor (contentLines exampleOneDeletionFile DiffSide.Left)
      (contentLines exampleOneDeletionFile DiffSide.Right)
      { row := 1, col := 2, side := DiffSide.Left } ∧
    applyMotion (contentLines exampleOneDeletionFile DiffSide.Left)
      (contentLines exampleOneDeletionFile DiffSide.Right)
      { row := 1, col := 2, side := DiffSide.Left }
      (Motion.sideSwitch DiffSide.Right) =
      some { row := 1, col := 2, side := DiffSide.Right } ∧
    ¬ ValidCursor (contentLines exampleOneDeletionFile DiffSide.Left)
      (contentLines exampleOneDeletionFile DiffSide.Right)
      { row := 1, col := 2, side := DiffSide.Right } := by
  refine ⟨by decide, rfl, by decide⟩

/-- Witness for the amended C5: a `j` then `9l` run over concrete buffers
lands on the clamped, still-valid cursor `(row 1, col 2)`. -/
theorem motion_sequence_valid_witness :
    ValidCursor ["ab", "c d"] ["", "x"] { row := 1, col := 2, side := DiffSide.Left } :=
  (motion_sequence_valid ["ab", "c d"] ["", "x"] rfl
      [Motion.lineDown 1, Motion.charRight 9] (by decide)
      { row := 0, col := 0, side := DiffSide.Left } (by decide)).1
    (by decide) 2 { row := 1, col := 2, side := DiffSide.Left } (by decide)

/-! ## Diff-view search (`App::search_diff_view`, src/app.rs:2199-2247)

This grounds the `motionOK` hypothesis of the motion theorems: every match the
search produces for a file addresses an in-bounds row and column of that
file's flattened buffers.  Lowercasing is modelled per character
(`Char.toLower`), and match offsets are character offsets; Rust's
`to_lowercase`/`match_indices` work on bytes, which coincides with this on
ASCII text. -/

/-- Character-level model of `str::to_lowercase`. -/
def lowerChars (s : String) : List Char :=
  s.data.map Char.toLower

/-- The start offsets of the successive non-overlapping occurrences of `q` in
the remaining text, scanning left to right and resuming after each match —
the offsets `match_indices` yields.  (`match_indices` with an empty pattern
is never reached: the search only runs for non-empty queries.) -/
def matchStartsAux (q : List Char) : List Char → Nat → List Nat
  | [], _ => []
  | ch :: t, pos =>
    if h : 0 < q.length ∧ (ch :: t).take q.length = q then
      pos :: matchStartsAux q ((ch :: t).drop q.length) (pos + q.length)
    else
      matchStartsAux q t (pos + 1)
termination_by l _ => l.length
decreasing_by
  · simp only [List.length_drop, List.length_cons]
    omega
  · simp

/-- `content.to_lowercase().match_indices(&query.to_lowercase())`, start
offsets only. -/
def matchIndicesLower (query content : String) : List Nat :=
  matchStartsAux (lowerChars query) (lowerChars content) 0

/-- The matches contributed by one searched line (row index, start offset,
`col_end = col_start + query.len()`, side). -/
def lineMatches (query : String) (row : Nat) (side : DiffSide) (content : String) :
    List SearchMatch :=
  (matchIndicesLower query content).map
    (fun cs => SearchMatch.DiffLine row cs (cs + query.length) side)

/-- The per-row body of `search_diff_view`'s inner loop (src/app.rs:2219-2245):
search the left side's content, then the right side's, then advance the row
index. -/
def searchRowStep (query : String) (a : List SearchMatch × Nat) (row : SideBySideRow) :
    List SearchMatch × Nat :=
  let leftMs :=
    match row.left with
    | some sl => lineMatches query a.2 DiffSide.Left sl.content
    | none => []
  let rightMs :=
    match row.right with
    | some sl => lineMatches query a.2 DiffSide.Right sl.content
    | none => []
  (a.1 ++ leftMs ++ rightMs, a.2 + 1)

/-- The per-hunk body of `search_diff_view` (src/app.rs:2206-2246): search the
header (tagged `Left`), advance the row index past it, then walk the rows. -/
def searchHunkStep (query : String) (acc : List SearchMatch × Nat) (hunk : DiffHunk) :
    List SearchMatch × Nat :=
  hunk.rows.foldl (searchRowStep query)
    (acc.1 ++ lineMatches query acc.2 DiffSide.Left hunk.header, acc.2 + 1)

/-- `App::search_diff_view` (src/app.rs:2199-2247): all matches of the query
over the selected file, in flattened row order. -/
def searchDiffViewMatches (query : String) (file : FileDiff) : List SearchMatch :=
  (file.hunks.foldl (searchHunkStep query) ([], 0)).1

theorem matchStartsAux_bound (q : List Char) :
    ∀ (l : List Char) (pos : Nat), ∀ m ∈ matchStartsAux q l pos,
      m + q.length ≤ pos + l.length := by
  intro l pos
  induction l, pos using matchStartsAux.induct q with
  | case1 pos => simp [matchStartsAux]
  | case2 ch t pos h ih =>
    intro m hm
    rw [matchStartsAux, dif_pos h] at hm
    have hqlen : q.length ≤ (ch :: t).length := by
      have h2 := congrArg List.length h.2
      simp only [List.length_take] at h2
      omega
    rcases List.mem_cons.mp hm with rfl | hm2
    · omega
    · have hih := ih m hm2
      rw [List.length_drop] at hih
      omega
  | case3 ch t pos h ih =>
    intro m hm
    rw [matchStartsAux, dif_neg h] at hm
    have hih := ih m hm
    have hlc : (ch :: t).length = t.length + 1 := by simp
    omega

theorem lowerChars_length (s : String) : (lowerChars s).length = s.length := by
  unfold lowerChars
  rw [List.length_map]
  rfl

theorem lineMatches_mem (query : String) (hq : 0 < query.length) (row : Nat)
    (side : DiffSide) (content : String) :
    ∀ r cs ce s2, SearchMatch.DiffLine r cs ce s2 ∈ lineMatches query row side content →
      r = row ∧ s2 = side ∧ cs < content.length := by
  intro r cs ce s2 hm
  unfold lineMatches at hm
  rw [List.mem_map] at hm
  obtain ⟨cs0, hcs0, heq⟩ := hm
  injection heq with h1 h2 h3 h4
  subst h1
  subst h2
  subst h4
  have hb := matchStartsAux_bound (lowerChars query) (lowerChars content) 0 cs0 hcs0
  rw [lowerChars_length, lowerChars_length] at hb
  exact ⟨rfl, rfl, by omega⟩

/-- The per-row flattened content of one side, i.e. the inner lambda of
`content_lines`. -/
def rowContent (side : DiffSide) (row : SideBySideRow) : String :=
  match (match side with
         | DiffSide.Left => row.left
         | DiffSide.Right => row.right) with
  | some sl => sl.content
  | none => ""

/-- The block of flattened lines one hunk contributes. -/
def blockOf (side : DiffSide) (hunk : DiffHunk) : List String :=
  hunk.header :: hunk.rows.map (rowContent side)

theorem contentLines_eq_blocks (file : FileDiff) (side : DiffSide) :
    contentLines file side = (file.hunks.map (blockOf side)).flatten := rfl

/-- A search match addresses an in-bounds row and column of the given pair of
flattened buffers. -/
def GoodMatch (wL wR : List String) (m : SearchMatch) : Prop :=
  match m with
  | SearchMatch.DiffLine r cs _ side =>
    r < (linesOf wL wR side).length ∧ cs < lineLenAt (linesOf wL wR side) r
  | _ => True

theorem lineLenAt_of_get? (lines : List String) (r : Nat) (s : String)
    (h : lines.get? r = some s) : lineLenAt lines r = max s.length 1 := by
  unfold lineLenAt
  rw [h]
  rfl

theorem get?_append_head (a : List String) (s : String) (b : List String) :
    (a ++ s :: b).get? a.length = some s := by
  rw [List.get?_append_right (le_refl a.length)]
  simp

theorem goodMatch_at_line (wL wR : List String) (preLen : Nat) (side : DiffSide)
    (s : String)
    (hside : (linesOf wL wR side).get? preLen = some s)
    (hother : ∀ side2, preLen < (linesOf wL wR side2).length)
    (query : String) (hq : 0 < query.length) :
    ∀ m ∈ lineMatches query preLen side s, GoodMatch wL wR m := by
  intro m hm
  have hshape : ∃ cs ce, m = SearchMatch.DiffLine preLen cs ce side ∧ cs < s.length := by
    unfold lineMatches at hm
    rw [List.mem_map] at hm
    obtain ⟨cs0, hcs0, heq⟩ := hm
    refine ⟨cs0, cs0 + query.length, heq.symm, ?_⟩
    have hb := matchStartsAux_bound (lowerChars query) (lowerChars s) 0 cs0 hcs0
    rw [lowerChars_length, lowerChars_length] at hb
    omega
  obtain ⟨cs, ce, rfl, hcs⟩ := hshape
  unfold GoodMatch
  refine ⟨hother side, ?_⟩
  rw [lineLenAt_of_get? _ _ _ hside]
  omega

theorem searchRows_good (query : String) (hq : 0 < query.length)
    (wL wR : List String) :
    ∀ (rows : List SideBySideRow) (preL preR sufL sufR : List String)
      (acc : List SearchMatch)
      (hpre : preL.length = preR.length)
      (hwL : wL = preL ++ rows.map (rowContent DiffSide.Left) ++ sufL)
      (hwR : wR = preR ++ rows.map (rowContent DiffSide.Right) ++ sufR)
      (hacc : ∀ m ∈ acc, GoodMatch wL wR m),
      ∀ m ∈ (rows.foldl (searchRowStep query) (acc, preL.length)).1,
        GoodMatch wL wR m := by
  intro rows
  induction rows with
  | nil =>
    intro preL preR sufL sufR acc hpre hwL hwR hacc
    simpa using hacc
  | cons row rest ih =>
    intro preL preR sufL sufR acc hpre hwL hwR hacc
    have hwL' : wL = preL ++ rowContent DiffSide.Left row ::
        (rest.map (rowContent DiffSide.Left) ++ sufL) := by
      rw [hwL]
      simp
    have hwR' : wR = preR ++ rowContent DiffSide.Right row ::
        (rest.map (rowContent DiffSide.Right) ++ sufR) := by
      rw [hwR]
      simp
    have hgetL : wL.get? preL.length = some (rowContent DiffSide.Left row) := by
      rw [hwL']
      exact get?_append_head _ _ _
    have hgetR : wR.get? preR.length = some (rowContent DiffSide.Right row) := by
      rw [hwR']
      exact get?_append_head _ _ _
    have hlenL : preL.length < wL.length := by
      rw [hwL']
      simp [List.length_append]
    have hlenR : preR.length < wR.length := by
      rw [hwR']
      simp [List.length_append]
    have hother : ∀ side2, preL.length < (linesOf wL wR side2).length := by
      intro side2
      cases side2
      · exact hlenL
      · rw [hpre]
        exact hlenR
    have hgoodL : ∀ m ∈ (match row.left with
        | some sl => lineMatches query preL.length DiffSide.Left sl.content
        | none => []), GoodMatch wL wR m := by
      cases hL : row.left with
      | none => simp
      | some sl =>
        have hc : rowContent DiffSide.Left row = sl.content := by
          unfold rowContent
          rw [hL]
        simp only []
        refine goodMatch_at_line wL wR preL.length DiffSide.Left sl.content ?_ hother
          query hq
        rw [← hc]
        exact hgetL
    have hgoodR : ∀ m ∈ (match row.right with
        | some sl => lineMatches query preL.length DiffSide.Right sl.content
        | none => []), GoodMatch wL wR m := by
      cases hR : row.right with
      | none => simp
      | some sr =>
        have hc : rowContent DiffSide.Right row = sr.content := by
          unfold rowContent
          rw [hR]
        simp only []
        refine goodMatch_at_line wL wR preL.length DiffSide.Right sr.content ?_ hother
          query hq
        show wR.get? preL.length = some sr.content
        rw [hpre, ← hc]
        exact hgetR
    simp only [List.foldl_cons]
    have hstep : searchRowStep query (acc, preL.length) row =
        (acc ++ (match row.left with
          | some sl => lineMatches query preL.length DiffSide.Left sl.content
          | none => []) ++ (match row.right with
          | some sl => lineMatches query preL.length DiffSide.Right sl.content
          | none => []), preL.length + 1) := rfl
    rw [hstep]
    have hplen : preL.length + 1 = (preL ++ [rowContent DiffSide.Left row]).length := by
      simp
    rw [hplen]
    refine ih (preL ++ [rowContent DiffSide.Left row])
      (preR ++ [rowContent DiffSide.Right row]) sufL sufR _ (by simp [hpre]) ?_ ?_ ?_
    · rw [hwL]
      simp
    · rw [hwR]
      simp
    · intro m hm
      rcases List.mem_append.mp hm with hm1 | hm2
      · rcases List.mem_append.mp hm1 with hm3 | hm4
        · exact hacc m hm3
        · exact hgoodL m hm4
      · exact hgoodR m hm2

theorem searchRowStep_counter (query : String) :
    ∀ (rows : List SideBySideRow) (acc : List SearchMatch) (i : Nat),
      (rows.foldl (searchRowStep query) (acc, i)).2 = i + rows.length
  | [], acc, i => by simp
  | row :: rest, acc, i => by
    simp only [List.foldl_cons]
    rw [show searchRowStep query (acc, i) row =
      ((searchRowStep query (acc, i) row).1, i + 1) from rfl]
    rw [searchRowStep_counter query rest (searchRowStep query (acc, i) row).1 (i + 1)]
    simp
    omega

theorem searchHunks_good (query : String) (hq : 0 < query.length)
    (wL wR : List String) :
    ∀ (hunks : List DiffHunk) (preL preR : List String) (acc : List SearchMatch)
      (hpre : preL.length = preR.length)
      (hwL : wL = preL ++ (hunks.map (blockOf DiffSide.Left)).flatten)
      (hwR : wR = preR ++ (hunks.map (blockOf DiffSide.Right)).flatten)
      (hacc : ∀ m ∈ acc, GoodMatch wL wR m),
      ∀ m ∈ (hunks.foldl (searchHunkStep query) (acc, preL.length)).1,
        GoodMatch wL wR m := by
  intro hunks
  induction hunks with
  | nil =>
    intro preL preR acc hpre hwL hwR hacc
    simpa using hacc
  | cons h rest ih =>
    intro preL preR acc hpre hwL hwR hacc
    have hwL' : wL = preL ++ h.header ::
        (h.rows.map (rowContent DiffSide.Left) ++
          (rest.map (blockOf DiffSide.Left)).flatten) := by
      rw [hwL]
      simp [blockOf]
    have hwR' : wR = preR ++ h.header ::
        (h.rows.map (rowContent DiffSide.Right) ++
          (rest.map (blockOf DiffSide.Right)).flatten) := by
      rw [hwR]
      simp [blockOf]
    have hgetL : wL.get? preL.length = some h.header := by
      rw [hwL']
      exact get?_append_head _ _ _
    have hother : ∀ side2, preL.length < (linesOf wL wR side2).length := by
      intro side2
      cases side2
      · show preL.length < wL.length
        rw [hwL']
        simp [List.length_append]
      · show preL.length < wR.length
        rw [hwR', hpre]
        simp [List.length_append]
    have hgoodH : ∀ m ∈ lineMatches query preL.length DiffSide.Left h.header,
        GoodMatch wL wR m :=
      goodMatch_at_line wL wR preL.length DiffSide.Left h.header hgetL hother query hq
    simp only [List.foldl_cons]
    rw [show searchHunkStep query (acc, preL.length) h =
      h.rows.foldl (searchRowStep query)
        (acc ++ lineMatches query preL.length DiffSide.Left h.header,
          preL.length + 1) from rfl]
    have hrows := searchRows_good query hq wL wR h.rows (preL ++ [h.header])
      (preR ++ [h.header]) ((rest.map (blockOf DiffSide.Left)).flatten)
      ((rest.map (blockOf DiffSide.Right)).flatten)
      (acc ++ lineMatches query preL.length DiffSide.Left h.header)
      (by simp [hpre])
      (by rw [hwL]; simp [blockOf])
      (by rw [hwR]; simp [blockOf])
      (by
        intro m hm
        rcases List.mem_append.mp hm with hm1 | hm2
        · exact hacc m hm1
        · exact hgoodH m hm2)
    rw [show preL.length + 1 = (preL ++ [h.header]).length from by simp]
    set inner := h.rows.foldl (searchRowStep query)
      (acc ++ lineMatches query preL.length DiffSide.Left h.header,
        (preL ++ [h.header]).length) with hinner
    have hcount : inner.2 = (preL ++ blockOf DiffSide.Left h).length := by
      rw [hinner, searchRowStep_counter]
      simp [blockOf]
      omega
    have hpair : inner = (inner.1, (preL ++ blockOf DiffSide.Left h).length) := by
      rw [← hcount]
    rw [hpair]
    exact ih (preL ++ blockOf DiffSide.Left h) (preR ++ blockOf DiffSide.Right h)
      inner.1
      (by simp [blockOf, hpre])
      (by rw [hwL]; simp [blockOf])
      (by rw [hwR]; simp [blockOf])
      hrows

/-- Every match `search_diff_view` produces for a file addresses an in-bounds
row of the flattened buffers and a column inside the matched line, so a
search-match jump always satisfies the `motionOK` hypothesis of the motion
invariant theorems. -/
theorem searchDiffViewMatches_ok (query : String) (hq : 0 < query.length)
    (file : FileDiff) :
    ∀ r cs ce side, SearchMatch.DiffLine r cs ce side ∈ searchDiffViewMatches query file →
      motionOK (contentLines file DiffSide.Left) (contentLines file DiffSide.Right)
        (Motion.jumpMatch r cs side) = true := by
  intro r cs ce side hm
  have hg := searchHunks_good query hq (contentLines file DiffSide.Left)
    (contentLines file DiffSide.Right) file.hunks [] [] []
    rfl
    (by rw [contentLines_eq_blocks]; simp)
    (by rw [contentLines_eq_blocks]; simp)
    (by simp)
    (SearchMatch.DiffLine r cs ce side) hm
  unfold GoodMatch at hg
  simp only [motionOK, Bool.and_eq_true, decide_eq_true_eq]
  exact hg

theorem getD_of_drop_cons {α : Type} (d : α) :
    ∀ (l : List α) (n : Nat) (x : α) (t : List α), l.drop n = x :: t → l.getD n d = x
  | [], n, x, t => by
    intro h
    rw [List.drop_nil] at h
    cases h
  | a :: l, 0, x, t => by
    intro h
    rw [List.drop_zero] at h
    injection h with h1 h2
  | a :: l, n + 1, x, t => by
    intro h
    rw [List.drop_succ_cons] at h
    rw [List.getD_cons_succ]
    exact getD_of_drop_cons d l n x t h

/-- The incremental loop and the eager loop of the highlighter perform the
same per-row computation whenever the hunk-boundary reset of the incremental
loop actually fires, i.e. whenever the extension lookup succeeds: starting
from corresponding states and accumulators, the two folds produce the same
color accumulators. -/
theorem extendFold_eq_hlAllFold {Syn PSt HSt C : Type} (env : TokEnv Syn PSt HSt C)
    (filePath : String) (s0 : Syn)
    (hext : env.findByExt (extOf filePath) = some s0)
    (leftLines rightLines : List String) (hunkStarts : List Nat) :
    ∀ (ll rl : List String) (i0 : Nat) (inc : IncrementalState PSt HSt)
      (lcs rcs : List (List C)),
      inc.leftLines = leftLines → inc.rightLines = rightLines →
      inc.hunkStarts = hunkStarts →
      leftLines.drop i0 = ll → rightLines.drop i0 = rl → rl.length = ll.length →
      ((List.range' i0 ll.length).foldl (extendStep env filePath) (inc, lcs, rcs)).2 =
        (((ll.zip rl).enumFrom i0).foldl (hlAllStep env s0 hunkStarts)
          ((inc.leftParseState, inc.leftHighlightState, inc.rightParseState,
            inc.rightHighlightState), lcs, rcs)).2
  | [], rl, i0, inc, lcs, rcs => by
    intro h1 h2 h3 h4 h5 h6
    have hrl : rl = [] := List.length_eq_zero.mp (by simpa using h6)
    subst hrl
    rfl
  | x :: ll', rl, i0, inc, lcs, rcs => by
    intro h1 h2 h3 h4 h5 h6
    cases rl with
    | nil => simp at h6
    | cons y rl' =>
      have h6' : rl'.length = ll'.length := by simpa using h6
      have hdropL : leftLines.drop (i0 + 1) = ll' := by
        have ht := List.tail_drop leftLines i0
        rw [h4] at ht
        exact ht.symm
      have hdropR : rightLines.drop (i0 + 1) = rl' := by
        have ht := List.tail_drop rightLines i0
        rw [h5] at ht
        exact ht.symm
      have hgx : leftLines.getD i0 "" = x := getD_of_drop_cons "" leftLines i0 x ll' h4
      have hgy : rightLines.getD i0 "" = y := getD_of_drop_cons "" rightLines i0 y rl' h5
      rw [show (x :: ll').length = ll'.length + 1 from rfl]
      rw [show List.range' i0 (ll'.length + 1) = i0 :: List.range' (i0 + 1) ll'.length
        from rfl]
      rw [show (x :: ll').zip (y :: rl') = (x, y) :: ll'.zip rl' from rfl]
      rw [show List.enumFrom i0 ((x, y) :: ll'.zip rl') =
        (i0, (x, y)) :: List.enumFrom (i0 + 1) (ll'.zip rl') from rfl]
      simp only [List.foldl_cons]
      by_cases hc : hunkStarts.contains i0
      · have hstepE : extendStep env filePath (inc, lcs, rcs) i0 =
            ({ inc with leftParseState := env.parseInit s0
                        leftHighlightState := env.hlInit
                        rightParseState := env.parseInit s0
                        rightHighlightState := env.hlInit },
             lcs ++ [[]], rcs ++ [[]]) := by
          unfold extendStep
          simp only [h3, hc, if_true]
          rw [show findSyntax env filePath none = some s0 from by
            unfold findSyntax; rw [hext]]
        have hstepH : hlAllStep env s0 hunkStarts
            ((inc.leftParseState, inc.leftHighlightState, inc.rightParseState,
              inc.rightHighlightState), lcs, rcs) (i0, x, y) =
            ((env.parseInit s0, env.hlInit, env.parseInit s0, env.hlInit),
             lcs ++ [[]], rcs ++ [[]]) := by
          unfold hlAllStep
          simp only [hc, if_true]
        rw [hstepE, hstepH]
        exact extendFold_eq_hlAllFold env filePath s0 hext leftLines rightLines hunkStarts
          ll' rl' (i0 + 1) _ (lcs ++ [[]]) (rcs ++ [[]]) h1 h2 h3 hdropL hdropR h6'
      · have hstepE : extendStep env filePath (inc, lcs, rcs) i0 =
            ({ inc with
                leftParseState :=
                  (env.hlLine inc.leftParseState inc.leftHighlightState x).1
                leftHighlightState :=
                  (env.hlLine inc.leftParseState inc.leftHighlightState x).2.1
                rightParseState :=
                  (env.hlLine inc.rightParseState inc.rightHighlightState y).1
                rightHighlightState :=
                  (env.hlLine inc.rightParseState inc.rightHighlightState y).2.1 },
             lcs ++ [(env.hlLine inc.leftParseState inc.leftHighlightState x).2.2],
             rcs ++ [(env.hlLine inc.rightParseState inc.rightHighlightState y).2.2]) := by
          unfold extendStep
          simp only [h3, hc, if_false, Bool.false_eq_true]
          rw [show inc.leftLines.getD i0 "" = x from by rw [h1]; exact hgx]
          rw [show inc.rightLines.getD i0 "" = y from by rw [h2]; exact hgy]
        have hstepH : hlAllStep env s0 hunkStarts
            ((inc.leftParseState, inc.leftHighlightState, inc.rightParseState,
              inc.rightHighlightState), lcs, rcs) (i0, x, y) =
            (((env.hlLine inc.leftParseState inc.leftHighlightState x).1,
              (env.hlLine inc.leftParseState inc.leftHighlightState x).2.1,
              (env.hlLine inc.rightParseState inc.rightHighlightState y).1,
              (env.hlLine inc.rightParseState inc.rightHighlightState y).2.1),
             lcs ++ [(env.hlLine inc.leftParseState inc.leftHighlightState x).2.2],
             rcs ++ [(env.hlLine inc.rightParseState inc.rightHighlightState y).2.2]) := by
          unfold hlAllStep
          simp only [hc, if_false, Bool.false_eq_true]
        rw [hstepE, hstepH]
        exact extendFold_eq_hlAllFold env filePath s0 hext leftLines rightLines hunkStarts
          ll' rl' (i0 + 1) _
          (lcs ++ [(env.hlLine inc.leftParseState inc.leftHighlightState x).2.2])
          (rcs ++ [(env.hlLine inc.rightParseState inc.rightHighlightState y).2.2])
          h1 h2 h3 hdropL hdropR h6'

/-- The positive half of the C1 story: when the extension lookup finds the
grammar (so `extend_cache`'s conditional reset always fires), creating a
cache and extending it to the full line count yields exactly the colors of
the eager `highlight_all_lines` — the divergence exhibited by the code-bug
theorems is confined to the first-line-sniffed case. -/
theorem createCache_extend_eq_highlightAll {Syn PSt HSt C : Type}
    (env : TokEnv Syn PSt HSt C) (filePath : String)
    (leftLines rightLines : List String) (hunkStarts : List Nat)
    (hlen : rightLines.length = leftLines.length) (s0 : Syn)
    (hext : env.findByExt (extOf filePath) = some s0) :
    (createCache env filePath leftLines rightLines hunkStarts).map
        (fun c => ((extendCache env c leftLines.length).leftColors,
                   (extendCache env c leftLines.length).rightColors)) =
      highlightAllLines env filePath leftLines rightLines hunkStarts := by
  have hfs : ∀ fl, findSyntax env filePath fl = some s0 := by
    intro fl
    unfold findSyntax
    rw [hext]
  unfold createCache highlightAllLines
  rw [hfs]
  simp only [Option.map_some']
  by_cases hn : leftLines.length = 0
  · have hL : leftLines = [] := List.length_eq_zero.mp hn
    have hR : rightLines = [] := List.length_eq_zero.mp (by omega)
    subst hL
    subst hR
    rfl
  · have hcore := extendFold_eq_hlAllFold env filePath s0 hext leftLines rightLines
      hunkStarts leftLines rightLines 0
      { leftParseState := env.parseInit s0
        leftHighlightState := env.hlInit
        rightParseState := env.parseInit s0
        rightHighlightState := env.hlInit
        leftLines := leftLines
        rightLines := rightLines
        hunkStarts := hunkStarts }
      [] [] rfl rfl rfl (List.drop_zero _) (List.drop_zero _) hlen
    have hext2 : extendCache env
        { filePath := filePath
          leftColors := []
          rightColors := []
          processedUpTo := 0
          incremental := some
            { leftParseState := env.parseInit s0
              leftHighlightState := env.hlInit
              rightParseState := env.parseInit s0
              rightHighlightState := env.hlInit
              leftLines := leftLines
              rightLines := rightLines
              hunkStarts := hunkStarts } }
        leftLines.length =
        { filePath := filePath
          leftColors := [] ++
            ((List.range' 0 (leftLines.length - 0)).foldl (extendStep env filePath)
              ({ leftParseState := env.parseInit s0
                 leftHighlightState := env.hlInit
                 rightParseState := env.parseInit s0
                 rightHighlightState := env.hlInit
                 leftLines := leftLines
                 rightLines := rightLines
                 hunkStarts := hunkStarts }, [], [])).2.1
          rightColors := [] ++
            ((List.range' 0 (leftLines.length - 0)).foldl (extendStep env filePath)
              ({ leftParseState := env.parseInit s0
                 leftHighlightState := env.hlInit
                 rightParseState := env.parseInit s0
                 rightHighlightState := env.hlInit
                 leftLines := leftLines
                 rightLines := rightLines
                 hunkStarts := hunkStarts }, [], [])).2.2
          processedUpTo := leftLines.length
          incremental := some
            ((List.range' 0 (leftLines.length - 0)).foldl (extendStep env filePath)
              ({ leftParseState := env.parseInit s0
                 leftHighlightState := env.hlInit
                 rightParseState := env.parseInit s0
                 rightHighlightState := env.hlInit
                 leftLines := leftLines
                 rightLines := rightLines
                 hunkStarts := hunkStarts }, [], [])).1 } := by
      refine extendCache_of_lt env _ _ leftLines.length leftLines.length rfl ?_ ?_
      · exact (Nat.min_self _).symm
      · exact show (0 : Nat) < leftLines.length by omega
    rw [hext2]
    simp only [List.nil_append, Nat.sub_zero]
    rw [show (List.enum (leftLines.zip rightLines)) =
      List.enumFrom 0 (leftLines.zip rightLines) from rfl]
    rw [← hcore]

end Vig
